import Mathlib

/-!
# Page locator: a shallow embedding of `lib/page-locator.mjs` and its helpers

JavaScript strings are modelled as lists of characters (`Str`), one list element per string
unit, so that `length`, `substring`, `startsWith` and `split` count the same units.
The file store, `decodeURI`, the path-safety predicate and `path.join` are collaborators of the
locator and are taken as parameters.
-/

namespace Webhandle

/-- A JavaScript string, as the list of its units. -/
abbrev Str := List Char

/-! ## String primitives used by the source -/

/-- The characters `String.prototype.trim` removes: ECMAScript WhiteSpace and LineTerminator. -/
def isJsWhitespace (c : Char) : Bool :=
  let n := c.toNat
  n == 0x09 || n == 0x0A || n == 0x0B || n == 0x0C || n == 0x0D || n == 0x20 || n == 0xA0 ||
  n == 0x1680 || (0x2000 ≤ n && n ≤ 0x200A) || n == 0x2028 || n == 0x2029 || n == 0x202F ||
  n == 0x205F || n == 0x3000 || n == 0xFEFF

/-- The method `s.trim()`. -/
def jsTrim (s : Str) : Str :=
  (s.dropWhile isJsWhitespace).rdropWhile isJsWhitespace

/-- The method `s.split(sep)` for a one-character separator: never an empty array. -/
def jsSplit (sep : Char) : Str → List Str
  | [] => [[]]
  | c :: cs =>
    if c = sep then [] :: jsSplit sep cs
    else
      match jsSplit sep cs with
      | [] => [[c]]
      | p :: ps => (c :: p) :: ps

/-- The method `parts.join(sep)` for a one-character separator. -/
def jsJoin (sep : Char) : List Str → Str
  | [] => []
  | [p] => p
  | p :: q :: ps => p ++ sep :: jsJoin sep (q :: ps)

/-- The method `s.startsWith(t)`. -/
def startsWith (s t : Str) : Bool := t.isPrefixOf s

/-- The method `s.endsWith(t)`. -/
def endsWith (s t : Str) : Bool := t.isSuffixOf s

/-! ## `lib/trim-up.mjs`, `lib/name-parts.mjs`, `lib/remove-ext.mjs` -/

/-- The function `trimUp` of `lib/trim-up.mjs`, on a string argument. The empty string is falsy
and is returned as it is; otherwise the string is trimmed once, then leading slashes and then
trailing slashes are removed. -/
def trimUp (path : Str) : Str :=
  if path.isEmpty then path
  else
    let path := jsTrim path
    let path := path.dropWhile (fun c => c == '/')
    path.rdropWhile (fun c => c == '/')

/-- The function `nameParts` of `lib/name-parts.mjs`: the pair `[parent, name]`. -/
def nameParts (path : Str) : Str × Str :=
  let path := trimUp path
  let parts := jsSplit '/' path
  if parts.length > 1 then
    (jsJoin '/' parts.dropLast, parts.getLastD [])
  else
    ([], jsJoin '/' parts)

/-- The function `removeExt` of `lib/remove-ext.mjs`. -/
def removeExt (name : Str) : Str :=
  let parts := jsSplit '.' name
  if parts.length > 1 then jsJoin '.' parts.dropLast else jsJoin '.' parts

/-! ## JavaScript objects used as string-keyed maps -/

/-- A plain JavaScript object used as a map from names to values: its own data properties, in
insertion order, which is what `Object.keys` enumerates. The prototype of the object is not part
of the value; `objAssign` says what an assignment under the name `__proto__` does to the own
properties. -/
abbrev Obj (α : Type) := List (Str × α)

/-- The property read `o[k]` among the own properties; `none` is `undefined`. -/
def objGet {α : Type} (o : Obj α) (k : Str) : Option α :=
  match o with
  | [] => none
  | (k', v) :: rest => if k' = k then some v else objGet rest k

/-- Setting the own property `k` of `o` to `v`: an existing property keeps its position, a new
one goes last. -/
def objSet {α : Type} (o : Obj α) (k : Str) (v : α) : Obj α :=
  match o with
  | [] => [(k, v)]
  | (k', v') :: rest => if k' = k then (k', v) :: rest else (k', v') :: objSet rest k v

/-- The assignment `o[k] = v` of an object `v` on an object made by the literal `{}`. Under the
name `__proto__` the assignment runs the setter inherited from `Object.prototype`: `v` becomes
the prototype of `o` and no own property is made, so the own properties stay as they are. Under
every other name the own property `k` is set. -/
def objAssign {α : Type} (o : Obj α) (k : Str) (v : α) : Obj α :=
  if k = "__proto__".toList then o else objSet o k v

/-- The number a string of decimal digits denotes. -/
def digitsValue (k : Str) : Nat :=
  k.foldl (fun n c => 10 * n + (c.toNat - 48)) 0

/-- Whether a property name is an array index: the canonical decimal form of an integer below
`2^32 - 1`. Such names are enumerated first, in ascending order. -/
def isArrayIndex (k : Str) : Bool :=
  !k.isEmpty && k.all Char.isDigit && (k == ['0'] || k.head? != some '0') &&
    decide (digitsValue k < 4294967295)

/-- The array `Object.keys(o)`: array-index names in ascending numeric order, then the other
names in insertion order. -/
def objKeys {α : Type} (o : Obj α) : List Str :=
  let ks := o.map Prod.fst
  (ks.filter isArrayIndex).insertionSort (fun a b => digitsValue a ≤ digitsValue b) ++
    ks.filter (fun k => !isArrayIndex k)

/-- The array `Array.from(new Set(xs))`: the first occurrence of each element, in order.
The accumulator holds the elements already in the set. -/
def arrayFromSet (seen : List Str) : List Str → List Str
  | [] => []
  | x :: xs => if x ∈ seen then arrayFromSet seen xs else x :: arrayFromSet (x :: seen) xs

/-- A property name or string operand made from a value that is a string or `null`. -/
def jsToString : Option Str → Str
  | none => ['n', 'u', 'l', 'l']
  | some s => s

/-! ## The file store and the host functions -/

/-- A child entry of a directory, as the file store lists it. -/
structure Entry where
  name : Str
  relPath : Str
  deriving DecidableEq, Repr

/-- What `getFullFileInfo` answers for a path. `children` is `none` when the property is
absent. -/
structure Info where
  directory : Bool
  relPath : Str
  children : Option (List Entry)
  deriving DecidableEq, Repr

/-- The file store: `getFullFileInfo p` is `none` when the awaited call fails. -/
structure FileSink where
  getFullFileInfo : Str → Option Info

/-- The store contract on directories: an entry that is a directory lists its children. -/
def StoreContract (sink : FileSink) : Prop :=
  ∀ path info, sink.getFullFileInfo path = some info → info.directory = true →
    info.children.isSome = true

/-- The functions the locator calls that are not part of it: the built-in `decodeURI` (`none`
when it throws `URIError`), the path-safety predicate of `lib/allowed-path.mjs`, and
`path.join` for two arguments. -/
structure Host where
  decodeURI : Str → Option Str
  allowedPath : Str → Bool
  join : Str → Str → Str

/-- Modelled from the spec: `lib/reduce-entries-to-names.mjs` is not among the sources. The
reducer files each child entry in the accumulator under its raw file name. -/
def reduceEntriesToNames (acc : Obj Entry) (entry : Entry) : Obj Entry :=
  objSet acc entry.name entry

/-! ## Result records -/

/-- A result record. `metadata` and `metadataExists` are absent until they are assigned;
`alternatives` is whatever the record holds under that name. -/
structure Page (A : Type) where
  template : Str
  metadata : Option Str := none
  metadataExists : Option Bool := none
  alternatives : A
  deriving DecidableEq, Repr

/-- The record of one alternate: it has no `alternatives` property. -/
abbrev AlternatePage := Page Unit

/-- The record `locate` resolves with; `alternatives` is `none` when the property is absent,
and otherwise the own properties of the object under that name. -/
abbrev ResolvedPage := Page (Option (Obj AlternatePage))

/-- How the promise returned by `locate` ends. `pending` stands for an exception thrown inside
the executor: the promise is then neither resolved nor rejected. -/
inductive Outcome where
  | resolve (result : ResolvedPage)
  | reject (code : Nat)
  | pending
  deriving DecidableEq, Repr

/-! ## `lib/add-metadata.mjs` -/

/-- The function `addMetadata` of `lib/add-metadata.mjs`. -/
def addMetadata {A : Type} (h : Host) (result : Page A) (base parentFilePath : Str)
    (namedSiblings : Obj Entry) : Page A :=
  match objGet namedSiblings (base ++ ".json".toList) with
  | some metaFile => { result with metadata := some metaFile.relPath, metadataExists := some true }
  | none =>
    { result with
      metadata := some (h.join parentFilePath (base ++ ".json".toList))
      metadataExists := some false }

/-! ## `lib/page-locator.mjs` -/

/-- The configuration of a locator: the constructor's options over its defaults. -/
structure PageLocator where
  indexNames : List Str := ["index".toList]
  templateExtensions : List Str := ["tri".toList, "html".toList]
  sink : FileSink

/-- The generator `candidateNamesGenerator`, as the list of what it yields. -/
def PageLocator.candidateNamesGenerator (self : PageLocator) (baseNames : List Str) : List Str :=
  baseNames.flatMap (fun name => self.templateExtensions.map (fun ext => name ++ '.' :: ext))

/-- The method `_getAltKey`; `none` is `null`. -/
def PageLocator._getAltKey (_self : PageLocator) (fileName base : Str) : Option Str :=
  if !startsWith fileName (base ++ ['_']) then none
  else
    let name := removeExt fileName
    some (name.drop (base.length + 1))

/-- The method `isTemplateFilename`. -/
def PageLocator.isTemplateFilename (self : PageLocator) (name : Str) : Bool :=
  self.templateExtensions.any (fun ext => endsWith name ('.' :: ext))

/-- The loop over `alts` in `_addInformationForFound`, on the own properties of
`result.alternatives`. `none` is the `TypeError` of reading `relPath` of `undefined`. -/
def PageLocator.addAlternatives (self : PageLocator) (h : Host) (base parentFilePath : Str)
    (namedSiblings : Obj Entry) : List Str → Obj AlternatePage → Option (Obj AlternatePage)
  | [], alternatives => some alternatives
  | altName :: alts, alternatives =>
    let altKey := jsToString (self._getAltKey altName base)
    match objGet namedSiblings altName with
    | none => none
    | some entry =>
      let alt : AlternatePage := { template := entry.relPath, alternatives := () }
      let alt := addMetadata h alt (base ++ '_' :: altKey) parentFilePath namedSiblings
      self.addAlternatives h base parentFilePath namedSiblings alts
        (objAssign alternatives altKey alt)

/-- The list `alts` of `_addInformationForFound`. -/
def PageLocator.alts (self : PageLocator) (base : Str) (namedSiblings : Obj Entry) : List Str :=
  arrayFromSet []
    (((objKeys namedSiblings).filter (fun name => startsWith name (base ++ ['_']))).filter
      self.isTemplateFilename)

/-- The method `_addInformationForFound`. `none` is the `TypeError` of reading `relPath` of
`undefined`. -/
def PageLocator._addInformationForFound (self : PageLocator) (h : Host) (found : Str)
    (namedSiblings : Obj Entry) : Option ResolvedPage :=
  match objGet namedSiblings found with
  | none => none
  | some foundEntry =>
    let result : ResolvedPage := { template := foundEntry.relPath, alternatives := some [] }
    let parentFilePath := (nameParts result.template).1
    let base := removeExt found
    let result := addMetadata h result base parentFilePath namedSiblings
    match self.addAlternatives h base parentFilePath namedSiblings (self.alts base namedSiblings)
        [] with
    | none => none
    | some alternatives => some { result with alternatives := some alternatives }

/-- The end of `locate` (from `parent.children.reduce` on): reduce the children to names, take
the first generated name among them, and build the result. -/
def PageLocator.locateAmong (self : PageLocator) (h : Host) (parent : Info)
    (namesGen : List Str) : Outcome :=
  match parent.children with
  | none => .pending
  | some children =>
    let named := children.foldl reduceEntriesToNames []
    let names := objKeys named
    match namesGen.find? (fun name => names.contains name) with
    | none => .reject 404
    | some found =>
      if found.isEmpty then .reject 404
      else
        match self._addInformationForFound h found named with
        | none => .pending
        | some result => .resolve result

/-- The method `locate`. -/
def PageLocator.locate (self : PageLocator) (h : Host) (url : Str) : Outcome :=
  let url := trimUp url
  match h.decodeURI url with
  | none => .pending
  | some filePath =>
    if !h.allowedPath filePath then .reject 401
    else
      match self.sink.getFullFileInfo filePath with
      | some info =>
        if !info.directory then
          let (parentFilePath, fileName) := nameParts filePath
          let base := removeExt fileName
          let metaPath := h.join parentFilePath (base ++ ".json".toList)
          .resolve
            { template := info.relPath
              metadata := some metaPath
              metadataExists := some (self.sink.getFullFileInfo metaPath).isSome
              alternatives := none }
        else
          self.locateAmong h info (self.candidateNamesGenerator self.indexNames)
      | none =>
        let (parentFilePath, fileName) := nameParts filePath
        match self.sink.getFullFileInfo parentFilePath with
        | none => .reject 404
        | some parent =>
          self.locateAmong h parent (self.candidateNamesGenerator [removeExt fileName])

/-! ## A concrete host and a concrete store, for evaluating the definitions -/

/-- The segment pass of `path.posix.normalize`: empty and `.` segments are dropped, `..` removes
the segment before it or, in a relative path, stays when there is none to remove. The
accumulator is the result so far, last segment first. -/
def normalizeSegments (allowAboveRoot : Bool) : List Str → List Str → List Str
  | [], acc => acc.reverse
  | seg :: rest, acc =>
    if seg = [] ∨ seg = ['.'] then normalizeSegments allowAboveRoot rest acc
    else if seg = ['.', '.'] then
      match acc with
      | [] => normalizeSegments allowAboveRoot rest (if allowAboveRoot then [seg] else [])
      | top :: below =>
        if top = ['.', '.'] then normalizeSegments allowAboveRoot rest (seg :: acc)
        else normalizeSegments allowAboveRoot rest below
    else normalizeSegments allowAboveRoot rest (seg :: acc)

/-- Node's `path.posix.normalize`. -/
def posixNormalize (path : Str) : Str :=
  if path.isEmpty then ['.']
  else
    let isAbsolute := path.head? == some '/'
    let trailingSeparator := path.getLast? == some '/'
    let body := jsJoin '/' (normalizeSegments (!isAbsolute) (jsSplit '/' path) [])
    if body.isEmpty then
      if isAbsolute then ['/'] else if trailingSeparator then ['.', '/'] else ['.']
    else
      let body := if trailingSeparator then body ++ ['/'] else body
      if isAbsolute then '/' :: body else body

/-- Node's `path.posix.join` for two arguments: empty arguments are skipped. -/
def posixJoin (a b : Str) : Str :=
  if a.isEmpty ∧ b.isEmpty then ['.']
  else if a.isEmpty then posixNormalize b
  else if b.isEmpty then posixNormalize a
  else posixNormalize (a ++ '/' :: b)

/-- A host for the examples. `decodeURI` is the identity on a string without `%`, which has no
escape sequence to decode (strings with `%` are not used in the examples and get `none`); a path
is allowed when none of its segments is `..`. -/
def exampleHost : Host where
  decodeURI := fun s => if '%' ∈ s then none else some s
  allowedPath := fun p => !(jsSplit '/' p).contains ['.', '.']
  join := posixJoin

/-- The info of a file at a path. -/
def fileInfo (path : Str) : Info :=
  { directory := false, relPath := path, children := none }

/-- The child entries of a directory at a path, from the names of its children. -/
def dirChildren (path : Str) (names : List Str) : List Entry :=
  names.map (fun n => { name := n, relPath := posixJoin path n })

/-- The info of a directory at a path, with the names of its children. -/
def dirInfo (path : Str) (names : List Str) : Info :=
  { directory := true, relPath := path, children := some (dirChildren path names) }

/-- The names in the root of the test store. -/
def rootNames : List Str :=
  ["index.tri".toList, "index.json".toList, "index_en.tri".toList, "one.tri".toList,
   "one.json".toList, "three".toList, "six".toList]

/-- The names in the directory `three` of the test store. -/
def threeNames : List Str :=
  ["index.tri".toList, "index.json".toList, "four.tri".toList, "four.json".toList,
   "four_de.tri".toList, "five.html".toList, "five.json".toList]

/-- A file store given by a table from paths to infos; a path outside the table fails. -/
def tableSink (table : List (Str × Info)) : FileSink where
  getFullFileInfo := fun p => objGet table p

/-- A store laid out like part of the `test-data` directory the tests run on. -/
def testSink : FileSink :=
  tableSink
    [ ("".toList, dirInfo "".toList rootNames),
      ("index.tri".toList, fileInfo "index.tri".toList),
      ("index.json".toList, fileInfo "index.json".toList),
      ("index_en.tri".toList, fileInfo "index_en.tri".toList),
      ("one.tri".toList, fileInfo "one.tri".toList),
      ("one.json".toList, fileInfo "one.json".toList),
      ("six".toList, dirInfo "six".toList []),
      ("three".toList, dirInfo "three".toList threeNames),
      ("three/index.tri".toList, fileInfo "three/index.tri".toList),
      ("three/index.json".toList, fileInfo "three/index.json".toList),
      ("three/four.tri".toList, fileInfo "three/four.tri".toList),
      ("three/four.json".toList, fileInfo "three/four.json".toList),
      ("three/four_de.tri".toList, fileInfo "three/four_de.tri".toList),
      ("three/five.html".toList, fileInfo "three/five.html".toList),
      ("three/five.json".toList, fileInfo "three/five.json".toList) ]

/-- The locator of the tests: default configuration over the test store. -/
def testLocator : PageLocator := { sink := testSink }

/-- A locator with default configuration over a store whose root lists `index.html` before
`index.tri`. -/
def indexLocator : PageLocator where
  sink := tableSink
    [ ("".toList, dirInfo "".toList ["index.html".toList, "index.tri".toList]),
      ("index.html".toList, fileInfo "index.html".toList),
      ("index.tri".toList, fileInfo "index.tri".toList) ]

/-- A locator with default configuration over a store whose root holds `index.tri` and a file
named `index_.tri`. -/
def underscoreLocator : PageLocator where
  sink := tableSink
    [ ("".toList, dirInfo "".toList ["index.tri".toList, "index_.tri".toList]),
      ("index.tri".toList, fileInfo "index.tri".toList),
      ("index_.tri".toList, fileInfo "index_.tri".toList) ]

/-- A locator with default configuration over a store whose root holds `a .tri` (with a space
before the dot) and `a.tri`. -/
def spaceLocator : PageLocator where
  sink := tableSink
    [ ("".toList, dirInfo "".toList ["a .tri".toList, "a.tri".toList]),
      ("a .tri".toList, fileInfo "a .tri".toList),
      ("a.tri".toList, fileInfo "a.tri".toList) ]

/-- A locator with default configuration over a store whose root lists `index_en.tri` before
`index_en.html`. -/
def twinLocator : PageLocator where
  sink := tableSink
    [ ("".toList, dirInfo "".toList
        ["index.tri".toList, "index_en.tri".toList, "index_en.html".toList]),
      ("index.tri".toList, fileInfo "index.tri".toList),
      ("index_en.tri".toList, fileInfo "index_en.tri".toList),
      ("index_en.html".toList, fileInfo "index_en.html".toList) ]

/-- A locator with default configuration over a store whose root holds `index.tri` and a file
named `index___proto__.tri`. -/
def protoLocator : PageLocator where
  sink := tableSink
    [ ("".toList, dirInfo "".toList ["index.tri".toList, "index___proto__.tri".toList]),
      ("index.tri".toList, fileInfo "index.tri".toList),
      ("index___proto__.tri".toList, fileInfo "index___proto__.tri".toList) ]

/-- A locator with default configuration over a store whose root holds `index.tri` and the two
files `index___proto__.tri` and `index___proto__.html`. -/
def protoTwinLocator : PageLocator where
  sink := tableSink
    [ ("".toList, dirInfo "".toList
        ["index.tri".toList, "index___proto__.tri".toList, "index___proto__.html".toList]),
      ("index.tri".toList, fileInfo "index.tri".toList),
      ("index___proto__.tri".toList, fileInfo "index___proto__.tri".toList),
      ("index___proto__.html".toList, fileInfo "index___proto__.html".toList) ]

/-! ## Normalising a path -/

theorem dropWhile_eq_self_of_strip {p : Char → Bool} {x : Str}
    (h : (x.dropWhile p).rdropWhile p = x) : x.dropWhile p = x ∧ x.rdropWhile p = x := by
  have h1 : ((x.dropWhile p).rdropWhile p).length ≤ (x.dropWhile p).length :=
    (List.rdropWhile_prefix p (x.dropWhile p)).length_le
  have h2 : x.dropWhile p <:+ x := List.dropWhile_suffix p
  have h3 : x.dropWhile p = x := by
    apply h2.eq_of_length
    have := h2.length_le
    rw [h] at h1
    omega
  rw [h3] at h
  exact ⟨h3, h⟩

theorem strip_snoc {p : Char → Bool} (x : Str) {a : Char} (ha : p a = true) :
    ((x ++ [a]).dropWhile p).rdropWhile p = (x.dropWhile p).rdropWhile p := by
  rw [List.dropWhile_append]
  split
  · next he =>
    have : x.dropWhile p = [] := by simpa using he
    simp [this, ha]
  · exact List.rdropWhile_concat_pos p _ a ha

theorem dropWhile_snoc_of_self {p : Char → Bool} (x : Str) {a : Char} (ha : p a = false)
    (h : x.dropWhile p = x) : (x ++ [a]).dropWhile p = x ++ [a] := by
  cases x with
  | nil => simp [ha]
  | cons c cs =>
    by_cases hc : p c = true
    · exfalso
      rw [List.dropWhile_cons_of_pos hc] at h
      have := (List.dropWhile_suffix p (l := cs)).length_le
      rw [h] at this
      simp at this
    · simp [List.dropWhile_cons_of_neg hc]

theorem rdropWhile_cons_of_self {p : Char → Bool} (x : Str) {a : Char} (ha : p a = false)
    (h : x.rdropWhile p = x) : (a :: x).rdropWhile p = a :: x := by
  rw [List.rdropWhile_eq_self_iff] at h ⊢
  intro _
  by_cases hx : x = []
  · subst hx; simp [ha]
  · rw [List.getLast_cons hx]
    exact h hx

theorem jsTrim_snoc_slash (x : Str) (hx : jsTrim x = x) : jsTrim (x ++ ['/']) = x ++ ['/'] := by
  obtain ⟨h1, _⟩ := dropWhile_eq_self_of_strip hx
  unfold jsTrim
  rw [dropWhile_snoc_of_self x (by decide) h1]
  exact List.rdropWhile_concat_neg _ _ _ (by decide)

theorem jsTrim_cons_slash (x : Str) (hx : jsTrim x = x) : jsTrim ('/' :: x) = '/' :: x := by
  obtain ⟨_, h2⟩ := dropWhile_eq_self_of_strip hx
  unfold jsTrim
  rw [List.dropWhile_cons_of_neg (by decide)]
  exact rdropWhile_cons_of_self x (by decide) h2

theorem trimUp_snoc_slash (x : Str) (hx : jsTrim x = x) : trimUp (x ++ ['/']) = trimUp x := by
  cases x with
  | nil => decide
  | cons c cs =>
    simp only [trimUp, List.isEmpty_cons, List.cons_append, Bool.false_eq_true, if_false]
    rw [← List.cons_append, jsTrim_snoc_slash _ hx, hx]
    exact strip_snoc _ (by decide)

theorem trimUp_cons_slash (x : Str) (hx : jsTrim x = x) : trimUp ('/' :: x) = trimUp x := by
  cases x with
  | nil => decide
  | cons c cs =>
    simp only [trimUp, List.isEmpty_cons, Bool.false_eq_true, if_false]
    rw [jsTrim_cons_slash _ hx, hx, List.dropWhile_cons_of_pos (by decide)]

/-! ## Objects as maps -/

theorem mem_objKeys {α : Type} (o : Obj α) (k : Str) : k ∈ objKeys o ↔ k ∈ o.map Prod.fst := by
  unfold objKeys
  simp only [List.mem_append, List.mem_insertionSort, List.mem_filter]
  constructor
  · rintro (⟨h, _⟩ | ⟨h, _⟩) <;> exact h
  · intro h
    by_cases hk : isArrayIndex k = true
    · exact Or.inl ⟨h, hk⟩
    · exact Or.inr ⟨h, by simpa using hk⟩

theorem objGet_eq_none_iff {α : Type} (o : Obj α) (k : Str) :
    objGet o k = none ↔ k ∉ o.map Prod.fst := by
  induction o with
  | nil => simp only [objGet, List.map_nil, List.not_mem_nil, not_false_eq_true]
  | cons p rest ih =>
    obtain ⟨k', v⟩ := p
    simp only [objGet, List.map_cons, List.mem_cons]
    by_cases hk : k' = k
    · subst hk
      simp only [if_pos, true_or, not_true_eq_false, iff_false]
      exact Option.some_ne_none _
    · have hk' : ¬ k = k' := fun h => hk h.symm
      rw [if_neg hk, ih]
      simp only [hk', false_or]

theorem objGet_isSome_iff {α : Type} (o : Obj α) (k : Str) :
    (objGet o k).isSome = true ↔ k ∈ o.map Prod.fst := by
  rw [← not_iff_not, ← objGet_eq_none_iff]
  cases objGet o k <;> simp

theorem objGet_objSet {α : Type} (o : Obj α) (k : Str) (v : α) (k' : Str) :
    objGet (objSet o k v) k' = if k = k' then some v else objGet o k' := by
  induction o with
  | nil => simp [objSet, objGet]
  | cons p rest ih =>
    obtain ⟨k0, v0⟩ := p
    by_cases h0 : k0 = k
    · subst h0
      by_cases h1 : k0 = k' <;> simp [objSet, objGet, h1]
    · by_cases h1 : k0 = k'
      · subst h1
        have : ¬ k = k0 := fun h => h0 h.symm
        simp [objSet, objGet, h0, this]
      · simp [objSet, objGet, h0, h1, ih]

theorem mem_keys_objSet {α : Type} (o : Obj α) (k : Str) (v : α) (k' : Str) :
    k' ∈ (objSet o k v).map Prod.fst ↔ k' = k ∨ k' ∈ o.map Prod.fst := by
  rw [← objGet_isSome_iff, ← objGet_isSome_iff, objGet_objSet]
  by_cases h : k = k'
  · subst h
    rw [if_pos rfl]
    simp only [Option.isSome_some, true_or]
  · rw [if_neg h]
    constructor
    · exact fun hh => Or.inr hh
    · rintro (hh | hh)
      · exact absurd hh.symm h
      · exact hh

theorem objGet_objAssign {α : Type} (o : Obj α) (k : Str) (v : α) (k' : Str) :
    objGet (objAssign o k v) k' =
      if k = "__proto__".toList then objGet o k'
      else if k = k' then some v else objGet o k' := by
  unfold objAssign
  by_cases hp : k = "__proto__".toList
  · rw [if_pos hp, if_pos hp]
  · rw [if_neg hp, if_neg hp, objGet_objSet]

theorem mem_keys_objAssign {α : Type} (o : Obj α) (k : Str) (v : α) (k' : Str) :
    k' ∈ (objAssign o k v).map Prod.fst ↔
      (k' = k ∧ k ≠ "__proto__".toList) ∨ k' ∈ o.map Prod.fst := by
  unfold objAssign
  by_cases hp : k = "__proto__".toList
  · rw [if_pos hp]
    constructor
    · exact fun hh => Or.inr hh
    · rintro (⟨_, hh⟩ | hh)
      · exact absurd hp hh
      · exact hh
  · rw [if_neg hp, mem_keys_objSet]
    constructor
    · rintro (hh | hh)
      · exact Or.inl ⟨hh, hp⟩
      · exact Or.inr hh
    · rintro (⟨hh, _⟩ | hh)
      · exact Or.inl hh
      · exact Or.inr hh

/-! ## The name map of a directory -/

theorem mem_keys_reduce (children : List Entry) (acc : Obj Entry) (k : Str) :
    k ∈ (children.foldl reduceEntriesToNames acc).map Prod.fst ↔
      k ∈ acc.map Prod.fst ∨ k ∈ children.map Entry.name := by
  induction children generalizing acc with
  | nil => simp only [List.foldl_nil, List.map_nil, List.not_mem_nil, or_false]
  | cons e rest ih =>
    rw [List.foldl_cons, ih, reduceEntriesToNames, mem_keys_objSet]
    simp only [List.map_cons, List.mem_cons]
    tauto

theorem objGet_reduce (children : List Entry) (acc : Obj Entry) (k : Str) (e : Entry)
    (h : objGet (children.foldl reduceEntriesToNames acc) k = some e) :
    objGet acc k = some e ∨ (e ∈ children ∧ e.name = k) := by
  induction children generalizing acc with
  | nil => exact Or.inl h
  | cons c rest ih =>
    rw [List.foldl_cons] at h
    rcases ih _ h with h' | ⟨h1, h2⟩
    · rw [reduceEntriesToNames, objGet_objSet] at h'
      by_cases hk : c.name = k
      · rw [if_pos hk] at h'
        cases h'
        exact Or.inr ⟨List.mem_cons_self _ _, hk⟩
      · rw [if_neg hk] at h'
        exact Or.inl h'
    · exact Or.inr ⟨List.mem_cons_of_mem _ h1, h2⟩

/-- The name-keyed map `locate` builds from the children of a directory. -/
theorem mem_names_iff (children : List Entry) (k : Str) :
    k ∈ objKeys (children.foldl reduceEntriesToNames []) ↔ k ∈ children.map Entry.name := by
  rw [mem_objKeys, mem_keys_reduce]
  simp only [List.map_nil, List.not_mem_nil, false_or]

theorem named_get (children : List Entry) (k : Str) (e : Entry)
    (h : objGet (children.foldl reduceEntriesToNames []) k = some e) :
    e ∈ children ∧ e.name = k := by
  rcases objGet_reduce children [] k e h with h' | h'
  · simp [objGet] at h'
  · exact h'

theorem mem_arrayFromSet (xs seen : List Str) (x : Str) :
    x ∈ arrayFromSet seen xs ↔ x ∈ xs ∧ x ∉ seen := by
  induction xs generalizing seen with
  | nil => simp [arrayFromSet]
  | cons y ys ih =>
    unfold arrayFromSet
    by_cases hy : y ∈ seen
    · rw [if_pos hy, ih]
      constructor
      · rintro ⟨h1, h2⟩; exact ⟨List.mem_cons_of_mem _ h1, h2⟩
      · rintro ⟨h1, h2⟩
        rcases List.mem_cons.1 h1 with rfl | h1
        · exact absurd hy h2
        · exact ⟨h1, h2⟩
    · rw [if_neg hy, List.mem_cons, ih]
      constructor
      · rintro (rfl | ⟨h1, h2⟩)
        · exact ⟨List.mem_cons_self _ _, hy⟩
        · exact ⟨List.mem_cons_of_mem _ h1, fun h => h2 (List.mem_cons_of_mem _ h)⟩
      · rintro ⟨h1, h2⟩
        rcases List.mem_cons.1 h1 with rfl | h1
        · exact Or.inl rfl
        · by_cases hxy : x = y
          · exact Or.inl hxy
          · refine Or.inr ⟨h1, ?_⟩
            intro h
            rcases List.mem_cons.1 h with h | h
            · exact hxy h
            · exact h2 h

/-- A name is in `alts` exactly when it is a key of the sibling map that starts with
`base + "_"` and is a template file name. -/
theorem mem_alts (self : PageLocator) (base : Str) (namedSiblings : Obj Entry) (name : Str) :
    name ∈ self.alts base namedSiblings ↔
      name ∈ objKeys namedSiblings ∧ startsWith name (base ++ ['_']) = true ∧
        self.isTemplateFilename name = true := by
  unfold PageLocator.alts
  rw [mem_arrayFromSet]
  simp only [List.mem_filter, List.not_mem_nil, not_false_eq_true, and_true]
  tauto

/-! ## The alternates loop -/

theorem addAlternatives_isSome (self : PageLocator) (h : Host) (base parentFilePath : Str)
    (namedSiblings : Obj Entry) (alts : List Str) (acc : Obj AlternatePage)
    (hall : ∀ a ∈ alts, a ∈ namedSiblings.map Prod.fst) :
    ∃ res, self.addAlternatives h base parentFilePath namedSiblings alts acc = some res := by
  induction alts generalizing acc with
  | nil => exact ⟨acc, rfl⟩
  | cons a rest ih =>
    have ha : (objGet namedSiblings a).isSome = true :=
      (objGet_isSome_iff _ _).2 (hall a (List.mem_cons_self _ _))
    obtain ⟨e, he⟩ := Option.isSome_iff_exists.1 ha
    unfold PageLocator.addAlternatives
    simp only [he]
    exact ih _ (fun b hb => hall b (List.mem_cons_of_mem _ hb))

theorem addAlternatives_keys (self : PageLocator) (h : Host) (base parentFilePath : Str)
    (namedSiblings : Obj Entry) (alts : List Str) (acc res : Obj AlternatePage)
    (hres : self.addAlternatives h base parentFilePath namedSiblings alts acc = some res)
    (k : Str) :
    k ∈ res.map Prod.fst ↔
      k ∈ acc.map Prod.fst ∨
        (k ≠ "__proto__".toList ∧ ∃ a ∈ alts, jsToString (self._getAltKey a base) = k) := by
  induction alts generalizing acc with
  | nil =>
    simp only [PageLocator.addAlternatives, Option.some.injEq] at hres
    subst hres
    simp only [List.not_mem_nil, false_and, exists_false, and_false, or_false]
  | cons a rest ih =>
    unfold PageLocator.addAlternatives at hres
    cases he : objGet namedSiblings a with
    | none => simp only [he] at hres; cases hres
    | some e =>
      simp only [he] at hres
      rw [ih _ hres, mem_keys_objAssign]
      simp only [List.mem_cons, exists_eq_or_imp]
      constructor
      · rintro ((⟨h1, h2⟩ | h1) | ⟨h1, h2⟩)
        · exact Or.inr ⟨h1 ▸ h2, Or.inl h1.symm⟩
        · exact Or.inl h1
        · exact Or.inr ⟨h1, Or.inr h2⟩
      · rintro (h1 | ⟨h1, h2 | h2⟩)
        · exact Or.inl (Or.inr h1)
        · exact Or.inl (Or.inl ⟨h2.symm, h2 ▸ h1⟩)
        · exact Or.inr ⟨h1, h2⟩

theorem addAlternatives_get (self : PageLocator) (h : Host) (base parentFilePath : Str)
    (namedSiblings : Obj Entry) (alts : List Str) (acc res : Obj AlternatePage)
    (hres : self.addAlternatives h base parentFilePath namedSiblings alts acc = some res)
    (k : Str) (v : AlternatePage) (hget : objGet res k = some v) :
    objGet acc k = some v ∨
      ∃ a ∈ alts, ∃ e, jsToString (self._getAltKey a base) = k ∧
        objGet namedSiblings a = some e ∧
        v = addMetadata h { template := e.relPath, alternatives := () } (base ++ '_' :: k)
              parentFilePath namedSiblings := by
  induction alts generalizing acc with
  | nil =>
    simp only [PageLocator.addAlternatives, Option.some.injEq] at hres
    subst hres
    exact Or.inl hget
  | cons a rest ih =>
    unfold PageLocator.addAlternatives at hres
    cases he : objGet namedSiblings a with
    | none => simp only [he] at hres; cases hres
    | some e =>
      simp only [he] at hres
      rcases ih _ hres with h1 | ⟨b, hb, e', h1, h2, h3⟩
      · rw [objGet_objAssign] at h1
        by_cases hp : jsToString (self._getAltKey a base) = "__proto__".toList
        · rw [if_pos hp] at h1
          exact Or.inl h1
        · rw [if_neg hp] at h1
          by_cases hk : jsToString (self._getAltKey a base) = k
          · rw [if_pos hk, Option.some.injEq] at h1
            refine Or.inr ⟨a, List.mem_cons_self _ _, e, hk, he, ?_⟩
            rw [← h1, hk]
          · rw [if_neg hk] at h1
            exact Or.inl h1
      · exact Or.inr ⟨b, List.mem_cons_of_mem _ hb, e', h1, h2, h3⟩

/-! ## Candidate names -/

theorem mem_candidateNames (self : PageLocator) (baseNames : List Str) (c : Str) :
    c ∈ self.candidateNamesGenerator baseNames ↔
      ∃ name ∈ baseNames, ∃ ext ∈ self.templateExtensions, c = name ++ '.' :: ext := by
  unfold PageLocator.candidateNamesGenerator
  simp only [List.mem_flatMap, List.mem_map]
  constructor
  · rintro ⟨n, hn, e, he, rfl⟩; exact ⟨n, hn, e, he, rfl⟩
  · rintro ⟨n, hn, e, he, rfl⟩; exact ⟨n, hn, e, he, rfl⟩

theorem candidate_ne_nil (self : PageLocator) (baseNames : List Str) (c : Str)
    (hc : c ∈ self.candidateNamesGenerator baseNames) : c ≠ [] := by
  obtain ⟨n, _, e, _, rfl⟩ := (mem_candidateNames self baseNames c).1 hc
  simp

/-- The first element of a mapped list that passes a test, by its index. -/
theorem find_map_index {p : Str → Bool} (g : Str → Str) (exts : List Str) (j : Nat) (ext : Str)
    (hj : exts[j]? = some ext) (hp : p (g ext) = true)
    (hfirst : ∀ j' ext', j' < j → exts[j']? = some ext' → p (g ext') = false) :
    (exts.map g).find? p = some (g ext) := by
  induction exts generalizing j with
  | nil => simp at hj
  | cons x xs ih =>
    cases j with
    | zero =>
      simp only [List.getElem?_cons_zero, Option.some.injEq] at hj
      subst hj
      simp [List.find?_cons, hp]
    | succ j =>
      have hx : p (g x) = false := hfirst 0 x (Nat.succ_pos _) (List.getElem?_cons_zero ..)
      simp only [List.map_cons, List.find?_cons, hx]
      apply ih j
      · simpa using hj
      · intro j' ext' hlt hget
        exact hfirst (j' + 1) ext' (Nat.succ_lt_succ hlt) (by simpa using hget)

/-- The first element of the nested candidate list that passes a test, by its pair of indices. -/
theorem find_candidate_index (self : PageLocator) {p : Str → Bool} (baseNames : List Str)
    (i j : Nat) (name ext : Str)
    (hi : baseNames[i]? = some name) (hj : self.templateExtensions[j]? = some ext)
    (hp : p (name ++ '.' :: ext) = true)
    (hfirst : ∀ i' j' name' ext', baseNames[i']? = some name' →
      self.templateExtensions[j']? = some ext' → (i' < i ∨ (i' = i ∧ j' < j)) →
      p (name' ++ '.' :: ext') = false) :
    (self.candidateNamesGenerator baseNames).find? p = some (name ++ '.' :: ext) := by
  unfold PageLocator.candidateNamesGenerator
  induction baseNames generalizing i with
  | nil => simp at hi
  | cons b bs ih =>
    rw [List.flatMap_cons, List.find?_append]
    cases i with
    | zero =>
      simp only [List.getElem?_cons_zero, Option.some.injEq] at hi
      subst hi
      rw [find_map_index (fun ext => b ++ '.' :: ext) self.templateExtensions j ext hj hp]
      · rfl
      · intro j' ext' hlt hget
        exact hfirst 0 j' b ext' (List.getElem?_cons_zero ..) hget (Or.inr ⟨rfl, hlt⟩)
    | succ i =>
      have hnone : (self.templateExtensions.map (fun ext => b ++ '.' :: ext)).find? p = none := by
        rw [List.find?_eq_none]
        intro c hc
        obtain ⟨e, he, rfl⟩ := List.mem_map.1 hc
        obtain ⟨j', hj'⟩ := List.mem_iff_getElem?.1 he
        simp [hfirst 0 j' b e (List.getElem?_cons_zero ..) hj' (Or.inl (Nat.succ_pos _))]
      rw [hnone, Option.none_or]
      apply ih i
      · simpa using hi
      · intro i' j' name' ext' h1 h2 h3
        apply hfirst (i' + 1) j' name' ext' (by simpa using h1) h2
        rcases h3 with h3 | ⟨h3, h4⟩
        · exact Or.inl (Nat.succ_lt_succ h3)
        · exact Or.inr ⟨by rw [h3], h4⟩

/-! ## The end of `locate` -/

theorem addInformationForFound_spec (self : PageLocator) (h : Host) (found : Str)
    (namedSiblings : Obj Entry) (r : ResolvedPage)
    (hres : self._addInformationForFound h found namedSiblings = some r) :
    ∃ e alternatives,
      objGet namedSiblings found = some e ∧
      self.addAlternatives h (removeExt found) (nameParts e.relPath).1 namedSiblings
        (self.alts (removeExt found) namedSiblings) [] = some alternatives ∧
      r = { addMetadata h ({ template := e.relPath, alternatives := some [] } : ResolvedPage)
              (removeExt found) (nameParts e.relPath).1 namedSiblings with
            alternatives := some alternatives } := by
  unfold PageLocator._addInformationForFound at hres
  cases he : objGet namedSiblings found with
  | none => simp only [he] at hres; cases hres
  | some e =>
    simp only [he] at hres
    cases ha : self.addAlternatives h (removeExt found) (nameParts e.relPath).1 namedSiblings
        (self.alts (removeExt found) namedSiblings) [] with
    | none => simp only [ha] at hres; cases hres
    | some alternatives =>
      simp only [ha, Option.some.injEq] at hres
      exact ⟨e, alternatives, rfl, ha, hres.symm⟩

theorem addInformationForFound_isSome (self : PageLocator) (h : Host) (found : Str)
    (namedSiblings : Obj Entry) (hfound : found ∈ objKeys namedSiblings) :
    ∃ r, self._addInformationForFound h found namedSiblings = some r := by
  have h1 : (objGet namedSiblings found).isSome = true :=
    (objGet_isSome_iff _ _).2 ((mem_objKeys _ _).1 hfound)
  obtain ⟨e, he⟩ := Option.isSome_iff_exists.1 h1
  obtain ⟨alternatives, ha⟩ := addAlternatives_isSome self h (removeExt found)
    (nameParts e.relPath).1 namedSiblings (self.alts (removeExt found) namedSiblings) []
    (fun a ha => (mem_objKeys _ _).1 ((mem_alts self _ _ a).1 ha).1)
  unfold PageLocator._addInformationForFound
  simp only [he, ha]
  exact ⟨_, rfl⟩

theorem locateAmong_found (self : PageLocator) (h : Host) (parent : Info) (namesGen : List Str)
    (children : List Entry) (found : Str) (hc : parent.children = some children)
    (hf : namesGen.find?
      (fun name => (objKeys (children.foldl reduceEntriesToNames [])).contains name) = some found)
    (hne : found ≠ []) :
    ∃ r, self._addInformationForFound h found (children.foldl reduceEntriesToNames []) = some r ∧
      self.locateAmong h parent namesGen = .resolve r := by
  have hmem : found ∈ objKeys (children.foldl reduceEntriesToNames []) := by
    have := List.find?_some hf
    simpa using this
  obtain ⟨r, hr⟩ := addInformationForFound_isSome self h found _ hmem
  refine ⟨r, hr, ?_⟩
  have hne' : found.isEmpty = false := by
    cases found with
    | nil => exact absurd rfl hne
    | cons _ _ => rfl
  unfold PageLocator.locateAmong
  simp only [hc, hf, hne', hr, Bool.false_eq_true, if_false]

theorem locateAmong_not_found (self : PageLocator) (h : Host) (parent : Info)
    (namesGen : List Str) (children : List Entry) (hc : parent.children = some children)
    (hf : namesGen.find?
      (fun name => (objKeys (children.foldl reduceEntriesToNames [])).contains name) = none) :
    self.locateAmong h parent namesGen = .reject 404 := by
  unfold PageLocator.locateAmong
  simp only [hc, hf]

theorem locateAmong_no_children (self : PageLocator) (h : Host) (parent : Info)
    (namesGen : List Str) (hc : parent.children = none) :
    self.locateAmong h parent namesGen = .pending := by
  unfold PageLocator.locateAmong
  simp only [hc]

/-- The scan finds nothing exactly when no generated name is the name of a child. -/
theorem find_names_eq_none_iff (namesGen : List Str) (children : List Entry) :
    namesGen.find?
      (fun name => (objKeys (children.foldl reduceEntriesToNames [])).contains name) = none ↔
    ∀ c ∈ namesGen, c ∉ children.map Entry.name := by
  rw [List.find?_eq_none]
  constructor
  · intro hall c hc hmem
    have := hall c hc
    rw [← mem_names_iff] at hmem
    simp [hmem] at this
  · intro hall c hc
    have := hall c hc
    rw [← mem_names_iff] at this
    simpa using this

/-- What `locate` computes once the path is decoded and allowed. -/
theorem locate_eq (self : PageLocator) (h : Host) (url filePath : Str)
    (hd : h.decodeURI (trimUp url) = some filePath) (ha : h.allowedPath filePath = true) :
    self.locate h url =
      match self.sink.getFullFileInfo filePath with
      | some info =>
        if info.directory = false then
          .resolve
            { template := info.relPath
              metadata := some (h.join (nameParts filePath).1
                (removeExt (nameParts filePath).2 ++ ".json".toList))
              metadataExists := some (self.sink.getFullFileInfo (h.join (nameParts filePath).1
                (removeExt (nameParts filePath).2 ++ ".json".toList))).isSome
              alternatives := none }
        else self.locateAmong h info (self.candidateNamesGenerator self.indexNames)
      | none =>
        match self.sink.getFullFileInfo (nameParts filePath).1 with
        | none => .reject 404
        | some parent =>
          self.locateAmong h parent
            (self.candidateNamesGenerator [removeExt (nameParts filePath).2]) := by
  unfold PageLocator.locate
  simp only [hd, ha]
  cases self.sink.getFullFileInfo filePath with
  | none => rfl
  | some info => cases hdir : info.directory <;> simp

theorem locateAmong_reject_iff (self : PageLocator) (h : Host) (parent : Info)
    (namesGen : List Str) (children : List Entry) (hc : parent.children = some children)
    (hgen : ∀ c ∈ namesGen, c ≠ []) :
    self.locateAmong h parent namesGen = .reject 404 ↔
      ∀ c ∈ namesGen, c ∉ children.map Entry.name := by
  rw [← find_names_eq_none_iff]
  cases hf : namesGen.find?
      (fun name => (objKeys (children.foldl reduceEntriesToNames [])).contains name) with
  | none => simp only [locateAmong_not_found self h parent namesGen children hc hf]
  | some found =>
    obtain ⟨r, _, hr⟩ := locateAmong_found self h parent namesGen children found hc hf
      (hgen found (List.mem_of_find?_eq_some hf))
    rw [hr]
    simp only [reduceCtorEq]

theorem locateAmong_resolve (self : PageLocator) (h : Host) (parent : Info)
    (namesGen : List Str) (children : List Entry) (r : ResolvedPage)
    (hc : parent.children = some children)
    (hres : self.locateAmong h parent namesGen = .resolve r) :
    ∃ found, found ∈ namesGen ∧ found ∈ children.map Entry.name ∧
      self._addInformationForFound h found (children.foldl reduceEntriesToNames []) = some r := by
  unfold PageLocator.locateAmong at hres
  simp only [hc] at hres
  cases hf : namesGen.find?
      (fun name => (objKeys (children.foldl reduceEntriesToNames [])).contains name) with
  | none => simp only [hf, reduceCtorEq] at hres
  | some found =>
    simp only [hf] at hres
    have hmem : found ∈ objKeys (children.foldl reduceEntriesToNames []) := by
      have := List.find?_some hf
      simpa using this
    refine ⟨found, List.mem_of_find?_eq_some hf, (mem_names_iff children found).1 hmem, ?_⟩
    cases hemp : found.isEmpty with
    | true => simp only [hemp, if_true, reduceCtorEq] at hres
    | false =>
      simp only [hemp, Bool.false_eq_true, if_false] at hres
      cases hinfo : self._addInformationForFound h found
          (children.foldl reduceEntriesToNames []) with
      | none => simp only [hinfo, reduceCtorEq] at hres
      | some r' =>
        simp only [hinfo, Outcome.resolve.injEq] at hres
        rw [hres]

/-- In the directory and page cases a resolved result is what `_addInformationForFound` builds
for a name among the children of the directory searched. -/
theorem locate_found (self : PageLocator) (h : Host) (url filePath : Str) (parent : Info)
    (children : List Entry) (r : ResolvedPage)
    (hd : h.decodeURI (trimUp url) = some filePath)
    (hcase : (self.sink.getFullFileInfo filePath = some parent ∧ parent.directory = true) ∨
      (self.sink.getFullFileInfo filePath = none ∧
        self.sink.getFullFileInfo (nameParts filePath).1 = some parent))
    (hc : parent.children = some children)
    (hres : self.locate h url = .resolve r) :
    ∃ found, found ∈ children.map Entry.name ∧
      self._addInformationForFound h found (children.foldl reduceEntriesToNames []) = some r := by
  have ha : h.allowedPath filePath = true := by
    cases hall : h.allowedPath filePath with
    | true => rfl
    | false =>
      unfold PageLocator.locate at hres
      simp only [hd, hall, Bool.not_false, if_true, reduceCtorEq] at hres
  rw [locate_eq self h url filePath hd ha] at hres
  rcases hcase with ⟨h1, h2⟩ | ⟨h1, h2⟩
  · simp only [h1, h2, Bool.true_eq_false, if_false] at hres
    obtain ⟨found, _, hm, hr⟩ := locateAmong_resolve self h parent _ children r hc hres
    exact ⟨found, hm, hr⟩
  · simp only [h1, h2] at hres
    obtain ⟨found, _, hm, hr⟩ := locateAmong_resolve self h parent _ children r hc hres
    exact ⟨found, hm, hr⟩

/-- The function `addMetadata` leaves the template as it is. -/
theorem addMetadata_template {A : Type} (h : Host) (result : Page A) (base parentFilePath : Str)
    (namedSiblings : Obj Entry) :
    (addMetadata h result base parentFilePath namedSiblings).template = result.template := by
  unfold addMetadata
  split <;> rfl

/-- The two ways `addMetadata` ends, against the name map of a list of children. -/
theorem addMetadata_cases {A : Type} (h : Host) (result : Page A) (base parentFilePath : Str)
    (children : List Entry) :
    (∃ m ∈ children, m.name = base ++ ".json".toList ∧
        addMetadata h result base parentFilePath (children.foldl reduceEntriesToNames []) =
          { result with metadata := some m.relPath, metadataExists := some true }) ∨
      (base ++ ".json".toList ∉ children.map Entry.name ∧
        addMetadata h result base parentFilePath (children.foldl reduceEntriesToNames []) =
          { result with
            metadata := some (h.join parentFilePath (base ++ ".json".toList))
            metadataExists := some false }) := by
  unfold addMetadata
  cases hm : objGet (children.foldl reduceEntriesToNames []) (base ++ ".json".toList) with
  | some m =>
    obtain ⟨h1, h2⟩ := named_get children _ m hm
    exact Or.inl ⟨m, h1, h2, rfl⟩
  | none =>
    refine Or.inr ⟨?_, rfl⟩
    rw [← mem_names_iff, mem_objKeys, ← objGet_eq_none_iff]
    exact hm

/-- A table store keeps the contract when each directory in the table lists children. -/
theorem tableSink_contract (table : List (Str × Info))
    (hall : ∀ p ∈ table, p.2.directory = true → p.2.children.isSome = true) :
    StoreContract (tableSink table) := by
  intro path info hget hdir
  have hmem : ∀ (t : List (Str × Info)), objGet t path = some info → (path, info) ∈ t := by
    intro t
    induction t with
    | nil => intro ht; simp [objGet] at ht
    | cons q rest ih =>
      obtain ⟨k, v⟩ := q
      intro ht
      unfold objGet at ht
      by_cases hk : k = path
      · rw [if_pos hk, Option.some.injEq] at ht
        rw [hk, ht]
        exact List.mem_cons_self _ _
      · rw [if_neg hk] at ht
        exact List.mem_cons_of_mem _ (ih ht)
  exact hall (path, info) (hmem table hget) hdir

/-! ## Slash invariance (C1) -/

/-- C1, counterexample: in the test store the page path `"three "` (with a trailing space)
resolves to the index of the directory `three`, while the same path followed by `"/"` is
rejected with 404: `trimUp` trims whitespace before it strips the slash, so the space stays. -/
theorem locate_trailing_slash_counterexample :
    testLocator.locate exampleHost "three ".toList =
        .resolve
          { template := "three/index.tri".toList
            metadata := some "three/index.json".toList
            metadataExists := some true
            alternatives := some [] } ∧
      testLocator.locate exampleHost ("three ".toList ++ "/".toList) = .reject 404 := by
  decide

/-- C1, amended: for every locator, host and file store, and every path `x` that neither starts
nor ends with whitespace (`x.trim()` is `x`), `locate(x + "/")` and `locate("/" + x)` end as
`locate(x)` does: the same result record, or the same rejection. -/
theorem locate_slash_invariant (self : PageLocator) (h : Host) (x : Str)
    (hx : jsTrim x = x) :
    self.locate h (x ++ "/".toList) = self.locate h x ∧
      self.locate h ("/".toList ++ x) = self.locate h x := by
  have h1 : trimUp (x ++ "/".toList) = trimUp x := trimUp_snoc_slash x hx
  have h2 : trimUp ("/".toList ++ x) = trimUp x := trimUp_cons_slash x hx
  unfold PageLocator.locate
  simp only [h1, h2, and_self]

/-- C1, witness: the sub-level page of the tests. -/
theorem locate_slash_invariant_witness :
    jsTrim "three/four".toList = "three/four".toList ∧
      (testLocator.locate exampleHost ("three/four".toList ++ "/".toList) =
          testLocator.locate exampleHost "three/four".toList ∧
        testLocator.locate exampleHost ("/".toList ++ "three/four".toList) =
          testLocator.locate exampleHost "three/four".toList) :=
  ⟨by decide, locate_slash_invariant testLocator exampleHost "three/four".toList (by decide)⟩

/-! ## The three lookups (C2, C3, C4) -/

/-- C2: when the decoded, allowed path is an existing directory and `(name, ext)` is the first
pair, in index-name order and then extension order, for which `name.ext` is the name of one of
the directory's children, `locate` resolves and the template is the relative path of a child
with that name. With the default configuration the pair `(index, tri)` comes first, so
`index.tri` is chosen whenever it is present. -/
theorem locate_directory_index (self : PageLocator) (h : Host) (url filePath : Str)
    (info : Info) (children : List Entry) (i j : Nat) (name ext : Str)
    (hd : h.decodeURI (trimUp url) = some filePath) (ha : h.allowedPath filePath = true)
    (hi : self.sink.getFullFileInfo filePath = some info) (hdir : info.directory = true)
    (hc : info.children = some children)
    (hname : self.indexNames[i]? = some name) (hext : self.templateExtensions[j]? = some ext)
    (hin : name ++ '.' :: ext ∈ children.map Entry.name)
    (hfirst : ∀ i' j' name' ext', self.indexNames[i']? = some name' →
      self.templateExtensions[j']? = some ext' → (i' < i ∨ (i' = i ∧ j' < j)) →
      name' ++ '.' :: ext' ∉ children.map Entry.name) :
    ∃ r e, self.locate h url = .resolve r ∧ e ∈ children ∧ e.name = name ++ '.' :: ext ∧
      r.template = e.relPath := by
  have hfind := find_candidate_index self
    (p := fun c => (objKeys (children.foldl reduceEntriesToNames [])).contains c)
    self.indexNames i j name ext hname hext
    (by simpa using (mem_names_iff children _).2 hin)
    (by
      intro i' j' name' ext' h1 h2 h3
      have := hfirst i' j' name' ext' h1 h2 h3
      rw [← mem_names_iff] at this
      simpa using this)
  obtain ⟨r, hr, hloc⟩ := locateAmong_found self h info _ children _ hc hfind (by simp)
  obtain ⟨e, alternatives, he, _, hrec⟩ := addInformationForFound_spec self h _ _ r hr
  obtain ⟨hmem, hn⟩ := named_get children _ e he
  refine ⟨r, e, ?_, hmem, hn, ?_⟩
  · rw [locate_eq self h url filePath hd ha, hi]
    simp only [hdir, Bool.true_eq_false, if_false]
    exact hloc
  · rw [hrec]
    unfold addMetadata
    split <;> rfl

/-- C2, witness: the root lists `index.html` and `index.tri`; the first pair is
`(index, tri)`. -/
theorem locate_directory_index_witness :
    ∃ r e, indexLocator.locate exampleHost "/".toList = .resolve r ∧
      e ∈ dirChildren "".toList ["index.html".toList, "index.tri".toList] ∧
      e.name = "index".toList ++ '.' :: "tri".toList ∧ r.template = e.relPath :=
  locate_directory_index indexLocator exampleHost "/".toList "".toList
    (dirInfo "".toList ["index.html".toList, "index.tri".toList]) _ 0 0 "index".toList
    "tri".toList (by decide) (by decide) (by decide) (by decide) (by decide) (by decide)
    (by decide) (by decide) (fun i' j' _ _ _ _ hlt => by omega)

/-- C3: when the decoded, allowed path has no entry but its parent has one that lists
children, `locate` strips the extension of the final segment to get the probe base name and,
with `ext` the first template extension for which `probeBase.ext` is the name of a child of the
parent, resolves with the relative path of a child of that name as template. -/
theorem locate_extensionless (self : PageLocator) (h : Host) (url filePath : Str)
    (parent : Info) (children : List Entry) (j : Nat) (ext : Str)
    (hd : h.decodeURI (trimUp url) = some filePath) (ha : h.allowedPath filePath = true)
    (hi : self.sink.getFullFileInfo filePath = none)
    (hp : self.sink.getFullFileInfo (nameParts filePath).1 = some parent)
    (hc : parent.children = some children)
    (hext : self.templateExtensions[j]? = some ext)
    (hin : removeExt (nameParts filePath).2 ++ '.' :: ext ∈ children.map Entry.name)
    (hfirst : ∀ j' ext', j' < j → self.templateExtensions[j']? = some ext' →
      removeExt (nameParts filePath).2 ++ '.' :: ext' ∉ children.map Entry.name) :
    ∃ r e, self.locate h url = .resolve r ∧ e ∈ children ∧
      e.name = removeExt (nameParts filePath).2 ++ '.' :: ext ∧ r.template = e.relPath := by
  have hfind := find_candidate_index self
    (p := fun c => (objKeys (children.foldl reduceEntriesToNames [])).contains c)
    [removeExt (nameParts filePath).2] 0 j _ ext rfl hext
    (by simpa using (mem_names_iff children _).2 hin)
    (by
      intro i' j' name' ext' h1 h2 h3
      have hi0 : i' = 0 := by
        cases i' with
        | zero => rfl
        | succ n => simp at h1
      subst hi0
      simp only [List.getElem?_cons_zero, Option.some.injEq] at h1
      subst h1
      have hlt : j' < j := by omega
      have := hfirst j' ext' hlt h2
      rw [← mem_names_iff] at this
      simpa using this)
  obtain ⟨r, hr, hloc⟩ := locateAmong_found self h parent _ children _ hc hfind (by simp)
  obtain ⟨e, alternatives, he, _, hrec⟩ := addInformationForFound_spec self h _ _ r hr
  obtain ⟨hmem, hn⟩ := named_get children _ e he
  refine ⟨r, e, ?_, hmem, hn, ?_⟩
  · rw [locate_eq self h url filePath hd ha, hi]
    simp only [hp]
    exact hloc
  · rw [hrec]
    unfold addMetadata
    split <;> rfl

/-- C3, witness: `/three/five` of the tests; `five.tri` is absent and `five.html` is found. -/
theorem locate_extensionless_witness :
    ∃ r e, testLocator.locate exampleHost "/three/five".toList = .resolve r ∧
      e ∈ dirChildren "three".toList threeNames ∧
      e.name = removeExt (nameParts "three/five".toList).2 ++ '.' :: "html".toList ∧
      r.template = e.relPath :=
  locate_extensionless testLocator exampleHost "/three/five".toList "three/five".toList
    (dirInfo "three".toList threeNames) _ 1 "html".toList
    (by decide) (by decide) (by decide) (by decide) (by decide) (by decide) (by decide)
    (fun j' ext' hlt hget => by
      have hj : j' = 0 := by omega
      subst hj
      have he : ext' = "tri".toList := by
        have h0 : testLocator.templateExtensions[0]? = some "tri".toList := by decide
        rw [h0] at hget
        exact (Option.some.inj hget).symm
      subst he
      decide)

/-- C4: when the decoded, allowed path is an existing entry that is not a directory, `locate`
resolves; the template is the entry's relative path, the metadata path is
`join(parent, base + ".json")` for `(parent, name)` the parts of the path and `base` the name
without its extension, `metadataExists` is true exactly when the store has an entry at that
metadata path (a failed lookup gives false, not a rejection), and the result has no
alternatives. -/
theorem locate_exact_file (self : PageLocator) (h : Host) (url filePath : Str) (info : Info)
    (hd : h.decodeURI (trimUp url) = some filePath) (ha : h.allowedPath filePath = true)
    (hi : self.sink.getFullFileInfo filePath = some info) (hfile : info.directory = false) :
    ∃ r, self.locate h url = .resolve r ∧ r.template = info.relPath ∧
      r.metadata = some (h.join (nameParts filePath).1
        (removeExt (nameParts filePath).2 ++ ".json".toList)) ∧
      (r.metadataExists = some true ↔
        ∃ m, self.sink.getFullFileInfo (h.join (nameParts filePath).1
          (removeExt (nameParts filePath).2 ++ ".json".toList)) = some m) ∧
      (r.metadataExists = some false ↔
        self.sink.getFullFileInfo (h.join (nameParts filePath).1
          (removeExt (nameParts filePath).2 ++ ".json".toList)) = none) ∧
      r.alternatives = none := by
  refine ⟨({ template := info.relPath,
              metadata := some (h.join (nameParts filePath).1
                (removeExt (nameParts filePath).2 ++ ".json".toList)),
              metadataExists := some (self.sink.getFullFileInfo (h.join (nameParts filePath).1
                (removeExt (nameParts filePath).2 ++ ".json".toList))).isSome,
              alternatives := none } : ResolvedPage), ?_, rfl, rfl, ?_, ?_, rfl⟩
  · rw [locate_eq self h url filePath hd ha, hi]
    simp only [hfile, if_true]
  · cases self.sink.getFullFileInfo (h.join (nameParts filePath).1
      (removeExt (nameParts filePath).2 ++ ".json".toList)) <;> simp
  · cases self.sink.getFullFileInfo (h.join (nameParts filePath).1
      (removeExt (nameParts filePath).2 ++ ".json".toList)) <;> simp

/-- C4, witness: `/one.tri` of the tests, whose metadata file `one.json` exists. -/
theorem locate_exact_file_witness :
    ∃ r, testLocator.locate exampleHost "/one.tri".toList = .resolve r ∧
      r.template = (fileInfo "one.tri".toList).relPath ∧
      r.metadata = some (exampleHost.join (nameParts "one.tri".toList).1
        (removeExt (nameParts "one.tri".toList).2 ++ ".json".toList)) ∧
      (r.metadataExists = some true ↔
        ∃ m, testLocator.sink.getFullFileInfo (exampleHost.join (nameParts "one.tri".toList).1
          (removeExt (nameParts "one.tri".toList).2 ++ ".json".toList)) = some m) ∧
      (r.metadataExists = some false ↔
        testLocator.sink.getFullFileInfo (exampleHost.join (nameParts "one.tri".toList).1
          (removeExt (nameParts "one.tri".toList).2 ++ ".json".toList)) = none) ∧
      r.alternatives = none :=
  locate_exact_file testLocator exampleHost "/one.tri".toList "one.tri".toList
    (fileInfo "one.tri".toList) (by decide) (by decide) (by decide) (by decide)

/-! ## Rejections (C5, C6, C7) -/

/-- C5: for a URL whose decoded path is allowed, over a store that keeps the directory contract
and in which the parent of the path, when it has an entry, is a directory, `locate` rejects with
404 exactly when (a) the path is an existing directory none of whose children is named
`indexName.ext`, or (b) the path has no entry and either its parent has none or no child of the
parent is named `probeBase.ext`. -/
theorem locate_reject_404_iff (self : PageLocator) (h : Host) (url filePath : Str)
    (hd : h.decodeURI (trimUp url) = some filePath) (ha : h.allowedPath filePath = true)
    (hsc : StoreContract self.sink)
    (hpar : ∀ parent, self.sink.getFullFileInfo (nameParts filePath).1 = some parent →
      parent.directory = true) :
    self.locate h url = .reject 404 ↔
      (∃ info children, self.sink.getFullFileInfo filePath = some info ∧
          info.directory = true ∧ info.children = some children ∧
          ∀ name ∈ self.indexNames, ∀ ext ∈ self.templateExtensions,
            name ++ '.' :: ext ∉ children.map Entry.name) ∨
        (self.sink.getFullFileInfo filePath = none ∧
          (self.sink.getFullFileInfo (nameParts filePath).1 = none ∨
            ∃ parent children, self.sink.getFullFileInfo (nameParts filePath).1 = some parent ∧
              parent.children = some children ∧
              ∀ ext ∈ self.templateExtensions,
                removeExt (nameParts filePath).2 ++ '.' :: ext ∉ children.map Entry.name)) := by
  have hcand : ∀ (baseNames : List Str) (children : List Entry),
      (∀ c ∈ self.candidateNamesGenerator baseNames, c ∉ children.map Entry.name) ↔
        ∀ name ∈ baseNames, ∀ ext ∈ self.templateExtensions,
          name ++ '.' :: ext ∉ children.map Entry.name := by
    intro baseNames children
    constructor
    · intro hall name hn ext he
      exact hall _ ((mem_candidateNames self baseNames _).2 ⟨name, hn, ext, he, rfl⟩)
    · intro hall c hcm
      obtain ⟨name, hn, ext, he, rfl⟩ := (mem_candidateNames self baseNames c).1 hcm
      exact hall name hn ext he
  cases hi : self.sink.getFullFileInfo filePath with
  | some info =>
    cases hdir : info.directory with
    | false =>
      have hloc : ∃ r, self.locate h url = .resolve r := by
        rw [locate_eq self h url filePath hd ha, hi]
        simp only [hdir, if_true]
        exact ⟨_, rfl⟩
      obtain ⟨r, hr⟩ := hloc
      rw [hr]
      constructor
      · intro hcontra
        cases hcontra
      · rintro (⟨info', children, h1, h2, _⟩ | ⟨h1, _⟩)
        · rw [Option.some.injEq] at h1
          rw [← h1, hdir] at h2
          cases h2
        · cases h1
    | true =>
      obtain ⟨children, hc⟩ := Option.isSome_iff_exists.1 (hsc filePath info hi hdir)
      have hloc : self.locate h url =
          self.locateAmong h info (self.candidateNamesGenerator self.indexNames) := by
        rw [locate_eq self h url filePath hd ha, hi]
        simp only [hdir, Bool.true_eq_false, if_false]
      rw [hloc, locateAmong_reject_iff self h info _ children hc (candidate_ne_nil self _),
        hcand]
      constructor
      · intro hall
        exact Or.inl ⟨info, children, rfl, hdir, hc, hall⟩
      · rintro (⟨info', children', h1, _, h3, h4⟩ | ⟨h1, _⟩)
        · rw [Option.some.injEq] at h1
          subst h1
          rw [hc, Option.some.injEq] at h3
          subst h3
          exact h4
        · cases h1
  | none =>
    cases hp : self.sink.getFullFileInfo (nameParts filePath).1 with
    | none =>
      have hloc : self.locate h url = .reject 404 := by
        rw [locate_eq self h url filePath hd ha, hi]
        simp only [hp]
      rw [hloc]
      exact ⟨fun _ => Or.inr ⟨rfl, Or.inl rfl⟩, fun _ => rfl⟩
    | some parent =>
      obtain ⟨children, hc⟩ :=
        Option.isSome_iff_exists.1 (hsc _ parent hp (hpar parent hp))
      have hloc : self.locate h url = self.locateAmong h parent
          (self.candidateNamesGenerator [removeExt (nameParts filePath).2]) := by
        rw [locate_eq self h url filePath hd ha, hi]
        simp only [hp]
      rw [hloc, locateAmong_reject_iff self h parent _ children hc (candidate_ne_nil self _),
        hcand]
      constructor
      · intro hall
        refine Or.inr ⟨rfl, Or.inr ⟨parent, children, rfl, hc, ?_⟩⟩
        intro ext he
        exact hall _ (List.mem_singleton_self _) ext he
      · rintro (⟨info', children', h1, _⟩ | ⟨_, h2 | ⟨parent', children', h2, h3, h4⟩⟩)
        · cases h1
        · cases h2
        · rw [Option.some.injEq] at h2
          subst h2
          rw [hc, Option.some.injEq] at h3
          subst h3
          intro name hn ext he
          rw [List.mem_singleton] at hn
          subst hn
          exact h4 ext he

/-- The test store keeps the directory contract. -/
theorem testSink_contract : StoreContract testSink :=
  tableSink_contract _ (by decide)

/-- C5, witness: the empty directory `six` of the tests. -/
theorem locate_reject_404_iff_witness :
    testLocator.locate exampleHost "/six".toList = .reject 404 ↔
      (∃ info children, testLocator.sink.getFullFileInfo "six".toList = some info ∧
          info.directory = true ∧ info.children = some children ∧
          ∀ name ∈ testLocator.indexNames, ∀ ext ∈ testLocator.templateExtensions,
            name ++ '.' :: ext ∉ children.map Entry.name) ∨
        (testLocator.sink.getFullFileInfo "six".toList = none ∧
          (testLocator.sink.getFullFileInfo (nameParts "six".toList).1 = none ∨
            ∃ parent children,
              testLocator.sink.getFullFileInfo (nameParts "six".toList).1 = some parent ∧
              parent.children = some children ∧
              ∀ ext ∈ testLocator.templateExtensions,
                removeExt (nameParts "six".toList).2 ++ '.' :: ext ∉
                  children.map Entry.name)) :=
  locate_reject_404_iff testLocator exampleHost "/six".toList "six".toList (by decide)
    (by decide) testSink_contract
    (fun parent hp => by
      have h0 : testLocator.sink.getFullFileInfo (nameParts "six".toList).1 =
          some (dirInfo "".toList rootNames) := by decide
      rw [h0, Option.some.injEq] at hp
      rw [← hp]
      rfl)

/-- C6: when the path-safety predicate rejects the decoded, normalized path, `locate` rejects
with 401 whatever the locator's configuration and file store are: the store is not consulted. -/
theorem locate_forbidden (self : PageLocator) (h : Host) (url filePath : Str)
    (hd : h.decodeURI (trimUp url) = some filePath) (ha : h.allowedPath filePath = false) :
    self.locate h url = .reject 401 := by
  unfold PageLocator.locate
  simp only [hd, ha, Bool.not_false, if_true]

/-- C6, witness: a path that climbs out of the root. -/
theorem locate_forbidden_witness :
    testLocator.locate exampleHost "/../six".toList = .reject 401 :=
  locate_forbidden testLocator exampleHost "/../six".toList "../six".toList (by decide)
    (by decide)

/-- C7, failing input: in the test store `one.tri` is a file, so `one.tri/x` has no entry and
its parent is an existing entry without children. The store keeps its contract, and `locate`
neither resolves nor rejects: reading `parent.children.reduce` throws inside the executor. -/
theorem locate_file_parent_pending :
    StoreContract testSink ∧
      testSink.getFullFileInfo "one.tri/x".toList = none ∧
      testSink.getFullFileInfo (nameParts "one.tri/x".toList).1 =
        some (fileInfo "one.tri".toList) ∧
      testLocator.locate exampleHost "one.tri/x".toList = .pending :=
  ⟨tableSink_contract _ (by decide), by decide, by decide, by decide⟩

/-! ## Alternates (C8, C9, C10) -/

/-- The key `_getAltKey` derives from a name in `alts`. -/
theorem altKey_of_mem_alts (self : PageLocator) (base : Str) (namedSiblings : Obj Entry)
    (n : Str) (hn : n ∈ self.alts base namedSiblings) :
    jsToString (self._getAltKey n base) = (removeExt n).drop (base.length + 1) := by
  have hs := ((mem_alts self base namedSiblings n).1 hn).2.1
  unfold PageLocator._getAltKey
  simp only [hs, Bool.not_true, Bool.false_eq_true, if_false, jsToString]

/-- Membership in `alts`, in terms of the children of the directory. -/
theorem mem_alts_children (self : PageLocator) (base : Str) (children : List Entry) (n : Str) :
    n ∈ self.alts base (children.foldl reduceEntriesToNames []) ↔
      n ∈ children.map Entry.name ∧ (base ++ ['_']) <+: n ∧
        ∃ ext ∈ self.templateExtensions, ('.' :: ext) <:+ n := by
  rw [mem_alts, mem_names_iff]
  unfold startsWith PageLocator.isTemplateFilename endsWith
  simp only [List.isPrefixOf_iff_prefix, List.any_eq_true, List.isSuffixOf_iff_suffix]

/-- The own keys of `alternatives` in the directory-index and extensionless-page cases, with
`found` the chosen file name and `base` that name without its extension: they are the keys other
than `__proto__` derived (extension stripped, then the part after `base + "_"`) from the sibling
names that start with `base + "_"` and end in `"." + ext` for an accepted extension, and the
record under a key has as template the relative path of a sibling deriving that key. A sibling
that derives `__proto__` leaves no key. -/
theorem alternatives_keys_except_proto (self : PageLocator) (h : Host) (url filePath : Str)
    (parent : Info) (children : List Entry) (r : ResolvedPage)
    (hd : h.decodeURI (trimUp url) = some filePath)
    (hcase : (self.sink.getFullFileInfo filePath = some parent ∧ parent.directory = true) ∨
      (self.sink.getFullFileInfo filePath = none ∧
        self.sink.getFullFileInfo (nameParts filePath).1 = some parent))
    (hc : parent.children = some children)
    (hres : self.locate h url = .resolve r) :
    ∃ found e alternatives, e ∈ children ∧ e.name = found ∧ r.template = e.relPath ∧
      r.alternatives = some alternatives ∧
      (∀ k, k ∈ objKeys alternatives ↔
        k ≠ "__proto__".toList ∧
          ∃ n ∈ children.map Entry.name, (removeExt found ++ ['_']) <+: n ∧
            (∃ ext ∈ self.templateExtensions, ('.' :: ext) <:+ n) ∧
            (removeExt n).drop ((removeExt found).length + 1) = k) ∧
      (∀ k v, objGet alternatives k = some v →
        ∃ s ∈ children, (removeExt found ++ ['_']) <+: s.name ∧
          (∃ ext ∈ self.templateExtensions, ('.' :: ext) <:+ s.name) ∧
          (removeExt s.name).drop ((removeExt found).length + 1) = k ∧
          v.template = s.relPath) := by
  obtain ⟨found, _, hr⟩ := locate_found self h url filePath parent children r hd hcase hc hres
  obtain ⟨e, alternatives, he, halts, hrec⟩ := addInformationForFound_spec self h _ _ r hr
  obtain ⟨hmem, hn⟩ := named_get children _ e he
  refine ⟨found, e, alternatives, hmem, hn, ?_, ?_, ?_, ?_⟩
  · rw [hrec]
    unfold addMetadata
    split <;> rfl
  · rw [hrec]
  · intro k
    rw [mem_objKeys, addAlternatives_keys self h _ _ _ _ _ _ halts k]
    simp only [List.map_nil, List.not_mem_nil, false_or]
    constructor
    · rintro ⟨hp, n, hn1, hn2⟩
      rw [altKey_of_mem_alts self _ _ n hn1] at hn2
      obtain ⟨h1, h2, h3⟩ := (mem_alts_children self _ children n).1 hn1
      exact ⟨hp, n, h1, h2, h3, hn2⟩
    · rintro ⟨hp, n, h1, h2, h3, h4⟩
      have hn1 := (mem_alts_children self (removeExt found) children n).2 ⟨h1, h2, h3⟩
      exact ⟨hp, n, hn1, by rw [altKey_of_mem_alts self _ _ n hn1]; exact h4⟩
  · intro k v hget
    rcases addAlternatives_get self h _ _ _ _ _ _ halts k v hget with h0 | ⟨n, hn1, s, h1, h2, h3⟩
    · simp [objGet] at h0
    · rw [altKey_of_mem_alts self _ _ n hn1] at h1
      obtain ⟨_, h5, h6⟩ := (mem_alts_children self _ children n).1 hn1
      obtain ⟨hs1, hs2⟩ := named_get children _ s h2
      refine ⟨s, hs1, by rw [hs2]; exact h5, by rw [hs2]; exact h6, by rw [hs2]; exact h1, ?_⟩
      rw [h3]
      unfold addMetadata
      split <;> rfl

/-- The result the tests expect for the page `three/four`. -/
theorem locate_three_four :
    testLocator.locate exampleHost "three/four".toList =
      .resolve
        { template := "three/four.tri".toList
          metadata := some "three/four.json".toList
          metadataExists := some true
          alternatives := some [("de".toList,
            { template := "three/four_de.tri".toList
              metadata := some "three/four_de.json".toList
              metadataExists := some false
              alternatives := () })] } := by
  decide

/-- The page `three/four` of the tests, whose alternate is `four_de.tri`, as an instance of
`alternatives_keys_except_proto`. -/
theorem alternatives_keys_except_proto_witness :
    ∃ found e alternatives, e ∈ dirChildren "three".toList threeNames ∧ e.name = found ∧
      "three/four.tri".toList = e.relPath ∧
      some [("de".toList,
        ({ template := "three/four_de.tri".toList
           metadata := some "three/four_de.json".toList
           metadataExists := some false
           alternatives := () } : AlternatePage))] = some alternatives ∧
      (∀ k, k ∈ objKeys alternatives ↔
        k ≠ "__proto__".toList ∧
          ∃ n ∈ (dirChildren "three".toList threeNames).map Entry.name,
            (removeExt found ++ ['_']) <+: n ∧
            (∃ ext ∈ testLocator.templateExtensions, ('.' :: ext) <:+ n) ∧
            (removeExt n).drop ((removeExt found).length + 1) = k) ∧
      (∀ k v, objGet alternatives k = some v →
        ∃ s ∈ dirChildren "three".toList threeNames,
          (removeExt found ++ ['_']) <+: s.name ∧
          (∃ ext ∈ testLocator.templateExtensions, ('.' :: ext) <:+ s.name) ∧
          (removeExt s.name).drop ((removeExt found).length + 1) = k ∧
          v.template = s.relPath) :=
  alternatives_keys_except_proto testLocator exampleHost "three/four".toList
    "three/four".toList (dirInfo "three".toList threeNames) _ _
    (by decide) (Or.inr ⟨by decide, by decide⟩) (by decide) locate_three_four

/-- C8, failing input: the root holds `index.tri` and `index___proto__.tri`, and the store keeps
its contract. The second name is a sibling that starts with `index_`, ends in the accepted
extension `tri` and derives the key `__proto__`, yet `locate("/")` resolves with an
`alternatives` object that has no own key: the assignment under `__proto__` made the record of
`index___proto__.tri` the prototype of the object instead of an entry of it. -/
theorem alternate_proto_key_dropped :
    StoreContract protoLocator.sink ∧
      "index___proto__.tri".toList ∈
        (dirChildren "".toList ["index.tri".toList, "index___proto__.tri".toList]).map
          Entry.name ∧
      (removeExt "index.tri".toList ++ ['_']) <+: "index___proto__.tri".toList ∧
      (∃ ext ∈ protoLocator.templateExtensions,
        ('.' :: ext) <:+ "index___proto__.tri".toList) ∧
      (removeExt "index___proto__.tri".toList).drop
        ((removeExt "index.tri".toList).length + 1) = "__proto__".toList ∧
      protoLocator.locate exampleHost "/".toList =
        .resolve
          { template := "index.tri".toList
            metadata := some "index.json".toList
            metadataExists := some false
            alternatives := some [] } ∧
      objKeys ([] : Obj AlternatePage) = [] :=
  ⟨tableSink_contract _ (by decide), by decide, by decide, by decide, by decide, by decide,
    rfl⟩

/-- C9, counterexample: with `index.tri` and `index_.tri` in the root, the page `""` resolves
and its alternatives hold an entry under the empty key, derived from `index_.tri`. -/
theorem empty_alternate_key_counterexample :
    underscoreLocator.locate exampleHost "".toList =
        .resolve
          { template := "index.tri".toList
            metadata := some "index.json".toList
            metadataExists := some false
            alternatives := some [("".toList,
              { template := "index_.tri".toList
                metadata := some "index_.json".toList
                metadataExists := some false
                alternatives := () })] } ∧
      ("".toList : Str) ∈ objKeys [("".toList,
        ({ template := "index_.tri".toList
           metadata := some "index_.json".toList
           metadataExists := some false
           alternatives := () } : AlternatePage))] := by
  decide

/-- C9, amended: in the directory-index and extensionless-page cases every key of
`alternatives` is derived from a sibling name `n` that starts with `base + "_"` and ends in an
accepted extension, and the key is non-empty exactly when `n` without its extension is longer
than `base + "_"`; the key is empty only for a name such as `base + "_." + ext`. -/
theorem alternate_key_nonempty_iff (self : PageLocator) (h : Host) (url filePath : Str)
    (parent : Info) (children : List Entry) (r : ResolvedPage)
    (hd : h.decodeURI (trimUp url) = some filePath)
    (hcase : (self.sink.getFullFileInfo filePath = some parent ∧ parent.directory = true) ∨
      (self.sink.getFullFileInfo filePath = none ∧
        self.sink.getFullFileInfo (nameParts filePath).1 = some parent))
    (hc : parent.children = some children)
    (hres : self.locate h url = .resolve r) :
    ∃ found e alternatives, e ∈ children ∧ e.name = found ∧ r.template = e.relPath ∧
      r.alternatives = some alternatives ∧
      ∀ k ∈ objKeys alternatives,
        ∃ n ∈ children.map Entry.name, (removeExt found ++ ['_']) <+: n ∧
          (∃ ext ∈ self.templateExtensions, ('.' :: ext) <:+ n) ∧
          (removeExt n).drop ((removeExt found).length + 1) = k ∧
          (k ≠ [] ↔ (removeExt found).length + 1 < (removeExt n).length) := by
  obtain ⟨found, _, hr⟩ := locate_found self h url filePath parent children r hd hcase hc hres
  obtain ⟨e, alternatives, he, halts, hrec⟩ := addInformationForFound_spec self h _ _ r hr
  obtain ⟨hmem, hn⟩ := named_get children _ e he
  refine ⟨found, e, alternatives, hmem, hn, ?_, ?_, ?_⟩
  · rw [hrec]
    unfold addMetadata
    split <;> rfl
  · rw [hrec]
  · intro k hk
    rw [mem_objKeys, addAlternatives_keys self h _ _ _ _ _ _ halts k] at hk
    simp only [List.map_nil, List.not_mem_nil, false_or] at hk
    obtain ⟨_, n, hn1, hn2⟩ := hk
    rw [altKey_of_mem_alts self _ _ n hn1] at hn2
    obtain ⟨h1, h2, h3⟩ := (mem_alts_children self _ children n).1 hn1
    refine ⟨n, h1, h2, h3, hn2, ?_⟩
    rw [← hn2, Ne, List.drop_eq_nil_iff]
    omega

/-- The result the tests expect for the root page. -/
theorem locate_root :
    testLocator.locate exampleHost "/".toList =
      .resolve
        { template := "index.tri".toList
          metadata := some "index.json".toList
          metadataExists := some true
          alternatives := some [("en".toList,
            { template := "index_en.tri".toList
              metadata := some "index_en.json".toList
              metadataExists := some false
              alternatives := () })] } := by
  decide

/-- C9, witness: the root page of the tests, with the alternate `index_en.tri`. -/
theorem alternate_key_nonempty_iff_witness :
    ∃ found e alternatives, e ∈ dirChildren "".toList rootNames ∧ e.name = found ∧
      "index.tri".toList = e.relPath ∧
      some [("en".toList,
        ({ template := "index_en.tri".toList
           metadata := some "index_en.json".toList
           metadataExists := some false
           alternatives := () } : AlternatePage))] = some alternatives ∧
      ∀ k ∈ objKeys alternatives,
        ∃ n ∈ (dirChildren "".toList rootNames).map Entry.name,
          (removeExt found ++ ['_']) <+: n ∧
          (∃ ext ∈ testLocator.templateExtensions, ('.' :: ext) <:+ n) ∧
          (removeExt n).drop ((removeExt found).length + 1) = k ∧
          (k ≠ [] ↔ (removeExt found).length + 1 < (removeExt n).length) :=
  alternate_key_nonempty_iff testLocator exampleHost "/".toList "".toList
    (dirInfo "".toList rootNames) _ _
    (by decide) (Or.inl ⟨by decide, by decide⟩) (by decide) locate_root

/-- C10: in the directory-index and extensionless-page cases, with `base` the chosen file name
without its extension, the record under a key `k` of `alternatives` is what `addMetadata` makes
of it for the base name `base + "_" + k`, the sibling map and the parent path of the primary
template: the relative path of the sibling named `base_k.json` with `metadataExists` true when
there is one, and otherwise `join(parent, base_k.json)` with `metadataExists` false. -/
theorem alternatives_metadata (self : PageLocator) (h : Host) (url filePath : Str)
    (parent : Info) (children : List Entry) (r : ResolvedPage)
    (hd : h.decodeURI (trimUp url) = some filePath)
    (hcase : (self.sink.getFullFileInfo filePath = some parent ∧ parent.directory = true) ∨
      (self.sink.getFullFileInfo filePath = none ∧
        self.sink.getFullFileInfo (nameParts filePath).1 = some parent))
    (hc : parent.children = some children)
    (hres : self.locate h url = .resolve r) :
    ∃ found e alternatives, e ∈ children ∧ e.name = found ∧ r.template = e.relPath ∧
      r.alternatives = some alternatives ∧
      ∀ k v, objGet alternatives k = some v →
        v = addMetadata h { template := v.template, alternatives := () }
              (removeExt found ++ '_' :: k) (nameParts r.template).1
              (children.foldl reduceEntriesToNames []) ∧
        ((∃ m ∈ children, m.name = (removeExt found ++ '_' :: k) ++ ".json".toList ∧
            v.metadata = some m.relPath ∧ v.metadataExists = some true) ∨
          ((removeExt found ++ '_' :: k) ++ ".json".toList ∉ children.map Entry.name ∧
            v.metadata = some (h.join (nameParts r.template).1
              ((removeExt found ++ '_' :: k) ++ ".json".toList)) ∧
            v.metadataExists = some false)) := by
  obtain ⟨found, _, hr⟩ := locate_found self h url filePath parent children r hd hcase hc hres
  obtain ⟨e, alternatives, he, halts, hrec⟩ := addInformationForFound_spec self h _ _ r hr
  obtain ⟨hmem, hn⟩ := named_get children _ e he
  have htemplate : r.template = e.relPath := by
    rw [hrec]
    unfold addMetadata
    split <;> rfl
  refine ⟨found, e, alternatives, hmem, hn, htemplate, by rw [hrec], ?_⟩
  intro k v hget
  rcases addAlternatives_get self h _ _ _ _ _ _ halts k v hget with h0 | ⟨n, _, s, _, _, h3⟩
  · simp [objGet] at h0
  · have ht : v.template = s.relPath := by
      rw [h3]
      exact addMetadata_template h _ _ _ _
    rw [htemplate]
    refine ⟨by rw [ht]; exact h3, ?_⟩
    rcases addMetadata_cases h ({ template := s.relPath, alternatives := () } : AlternatePage)
        (removeExt found ++ '_' :: k) (nameParts e.relPath).1 children with
      ⟨m, hm1, hm2, hm3⟩ | ⟨hm1, hm2⟩
    · rw [hm3] at h3
      exact Or.inl ⟨m, hm1, hm2, by rw [h3], by rw [h3]⟩
    · rw [hm2] at h3
      exact Or.inr ⟨hm1, by rw [h3], by rw [h3]⟩

/-- C10, witness: the root page of the tests; `index_en.json` is absent. -/
theorem alternatives_metadata_witness :
    ∃ found e alternatives, e ∈ dirChildren "".toList rootNames ∧ e.name = found ∧
      "index.tri".toList = e.relPath ∧
      some [("en".toList,
        ({ template := "index_en.tri".toList
           metadata := some "index_en.json".toList
           metadataExists := some false
           alternatives := () } : AlternatePage))] = some alternatives ∧
      ∀ k v, objGet alternatives k = some v →
        v = addMetadata exampleHost { template := v.template, alternatives := () }
              (removeExt found ++ '_' :: k) (nameParts "index.tri".toList).1
              ((dirChildren "".toList rootNames).foldl reduceEntriesToNames []) ∧
        ((∃ m ∈ dirChildren "".toList rootNames,
            m.name = (removeExt found ++ '_' :: k) ++ ".json".toList ∧
            v.metadata = some m.relPath ∧ v.metadataExists = some true) ∨
          ((removeExt found ++ '_' :: k) ++ ".json".toList ∉
              (dirChildren "".toList rootNames).map Entry.name ∧
            v.metadata = some (exampleHost.join (nameParts "index.tri".toList).1
              ((removeExt found ++ '_' :: k) ++ ".json".toList)) ∧
            v.metadataExists = some false)) :=
  alternatives_metadata testLocator exampleHost "/".toList "".toList
    (dirInfo "".toList rootNames) _ _
    (by decide) (Or.inl ⟨by decide, by decide⟩) (by decide) locate_root

/-! ## Splitting and joining -/

theorem jsSplit_ne_nil (sep : Char) (s : Str) : jsSplit sep s ≠ [] := by
  cases s with
  | nil => simp [jsSplit]
  | cons c cs =>
    unfold jsSplit
    by_cases hc : c = sep
    · simp [hc]
    · rw [if_neg hc]
      cases jsSplit sep cs <;> simp

theorem jsSplit_cons_of_ne (sep c : Char) (cs : Str) (hc : c ≠ sep) :
    ∃ p ps, jsSplit sep cs = p :: ps ∧ jsSplit sep (c :: cs) = (c :: p) :: ps := by
  cases hs : jsSplit sep cs with
  | nil => exact absurd hs (jsSplit_ne_nil sep cs)
  | cons p ps =>
    refine ⟨p, ps, rfl, ?_⟩
    rw [jsSplit, if_neg hc, hs]

theorem jsSplit_cons_sep (sep : Char) (cs : Str) :
    jsSplit sep (sep :: cs) = [] :: jsSplit sep cs := by
  rw [jsSplit, if_pos rfl]

/-- Joining the pieces of a split gives the string back. -/
theorem jsJoin_jsSplit (sep : Char) (s : Str) : jsJoin sep (jsSplit sep s) = s := by
  induction s with
  | nil => rfl
  | cons c cs ih =>
    by_cases hc : c = sep
    · subst hc
      rw [jsSplit_cons_sep]
      cases hs : jsSplit c cs with
      | nil => exact absurd hs (jsSplit_ne_nil c cs)
      | cons q qs =>
        rw [hs] at ih
        rw [jsJoin, ih]
        rfl
    · obtain ⟨p, ps, h1, h2⟩ := jsSplit_cons_of_ne sep c cs hc
      rw [h2]
      rw [h1] at ih
      cases ps with
      | nil =>
        rw [jsJoin] at ih ⊢
        rw [ih]
      | cons q qs =>
        rw [jsJoin] at ih ⊢
        rw [← ih]
        rfl

/-- A string without the separator is its own single piece. -/
theorem jsSplit_of_not_mem (sep : Char) (s : Str) (hs : sep ∉ s) : jsSplit sep s = [s] := by
  induction s with
  | nil => rfl
  | cons c cs ih =>
    have hc : c ≠ sep := fun h => hs (h ▸ List.mem_cons_self _ _)
    have hcs : sep ∉ cs := fun h => hs (List.mem_cons_of_mem _ h)
    rw [jsSplit, if_neg hc, ih hcs]

/-- No piece of a split holds the separator. -/
theorem not_mem_of_mem_jsSplit (sep : Char) (s p : Str) (hp : p ∈ jsSplit sep s) : sep ∉ p := by
  induction s generalizing p with
  | nil =>
    simp only [jsSplit, List.mem_singleton] at hp
    subst hp
    exact List.not_mem_nil _
  | cons c cs ih =>
    by_cases hc : c = sep
    · subst hc
      rw [jsSplit_cons_sep, List.mem_cons] at hp
      rcases hp with rfl | hp
      · exact List.not_mem_nil _
      · exact ih p hp
    · obtain ⟨q, qs, h1, h2⟩ := jsSplit_cons_of_ne sep c cs hc
      rw [h2, List.mem_cons] at hp
      rcases hp with rfl | hp
      · intro hmem
        rcases List.mem_cons.1 hmem with h | h
        · exact hc h.symm
        · exact ih q (h1 ▸ List.mem_cons_self _ _) h
      · exact ih p (h1 ▸ List.mem_cons_of_mem _ hp)

/-- Splitting around one occurrence of the separator. -/
theorem jsSplit_append_sep (sep : Char) (a b : Str) :
    jsSplit sep (a ++ sep :: b) = jsSplit sep a ++ jsSplit sep b := by
  induction a with
  | nil => rw [List.nil_append, jsSplit_cons_sep]; rfl
  | cons c cs ih =>
    by_cases hc : c = sep
    · subst hc
      rw [List.cons_append, jsSplit_cons_sep, jsSplit_cons_sep, ih]
      rfl
    · obtain ⟨p, ps, h1, h2⟩ := jsSplit_cons_of_ne sep c cs hc
      obtain ⟨p', ps', h1', h2'⟩ := jsSplit_cons_of_ne sep c (cs ++ sep :: b) hc
      rw [List.cons_append, h2', h2]
      rw [ih, h1, List.cons_append] at h1'
      injection h1' with hp hps
      rw [← hp, ← hps]
      rfl

theorem one_lt_length_jsSplit_iff (sep : Char) (s : Str) :
    1 < (jsSplit sep s).length ↔ sep ∈ s := by
  constructor
  · intro hlen
    by_contra hs
    rw [jsSplit_of_not_mem sep s hs] at hlen
    simp at hlen
  · intro hs
    obtain ⟨a, b, rfl⟩ := List.append_of_mem hs
    rw [jsSplit_append_sep, List.length_append]
    have h1 := List.length_pos.2 (jsSplit_ne_nil sep a)
    have h2 := List.length_pos.2 (jsSplit_ne_nil sep b)
    omega

theorem jsJoin_append_singleton (sep : Char) (l : List Str) (x : Str) (hl : l ≠ []) :
    jsJoin sep (l ++ [x]) = jsJoin sep l ++ sep :: x := by
  induction l with
  | nil => exact absurd rfl hl
  | cons p ps ih =>
    cases ps with
    | nil => rfl
    | cons q qs =>
      have := ih (List.cons_ne_nil _ _)
      rw [List.cons_append] at this
      show p ++ sep :: jsJoin sep (q :: (qs ++ [x])) = (p ++ sep :: jsJoin sep (q :: qs)) ++ sep :: x
      rw [this, List.append_assoc]
      rfl

theorem dropLast_append_getLastD (l : List Str) (hl : l ≠ []) :
    l.dropLast ++ [l.getLastD []] = l := by
  cases l with
  | nil => exact absurd rfl hl
  | cons a as =>
    have := List.dropLast_append_getLast (List.cons_ne_nil a as)
    simpa [List.getLastD] using this

/-- A split with more than one piece is the join of all pieces but the last, the separator and
the last piece. -/
theorem jsJoin_dropLast_getLastD (sep : Char) (s : Str) (hs : 1 < (jsSplit sep s).length) :
    jsJoin sep (jsSplit sep s).dropLast ++ sep :: (jsSplit sep s).getLastD [] = s := by
  have hne : (jsSplit sep s).dropLast ≠ [] := by
    intro h
    have := congrArg List.length h
    rw [List.length_dropLast] at this
    simp at this
    omega
  rw [← jsJoin_append_singleton sep _ _ hne,
    dropLast_append_getLastD _ (jsSplit_ne_nil sep s), jsJoin_jsSplit]

theorem getLastD_mem (l : List Str) (hl : l ≠ []) : l.getLastD [] ∈ l := by
  cases l with
  | nil => exact absurd rfl hl
  | cons a as =>
    simp [List.getLastD]

/-! ## The path normalizer (C12, C13, C14, C15) -/

theorem strip_eq_self_of_length {p : Char → Bool} {x : Str}
    (h : ((x.dropWhile p).rdropWhile p).length = x.length) :
    (x.dropWhile p).rdropWhile p = x := by
  have h1 : (x.dropWhile p).rdropWhile p <+: x.dropWhile p := List.rdropWhile_prefix p _
  have h2 : x.dropWhile p <:+ x := List.dropWhile_suffix p
  have h3 : x.dropWhile p = x := by
    apply h2.eq_of_length
    have a := h1.length_le
    have b := h2.length_le
    omega
  rw [h3] at h1 ⊢
  apply h1.eq_of_length
  rw [h3] at h
  exact h

theorem strip_length_le (p : Char → Bool) (x : Str) :
    ((x.dropWhile p).rdropWhile p).length ≤ x.length :=
  Nat.le_trans (List.rdropWhile_prefix p _).length_le (List.dropWhile_suffix p).length_le

/-- What is left after the slashes are stripped from both ends has none at either end. -/
theorem strip_slash_fixed (t : Str) :
    let q := (t.dropWhile (fun c => c == '/')).rdropWhile (fun c => c == '/')
    (q.dropWhile (fun c => c == '/')).rdropWhile (fun c => c == '/') = q := by
  intro q
  have hq : q.dropWhile (fun c => c == '/') = q := by
    cases hq0 : q with
    | nil => rfl
    | cons a as =>
      have hpre : q <+: t.dropWhile (fun c => c == '/') := List.rdropWhile_prefix _ _
      rw [hq0] at hpre
      obtain ⟨u, hu⟩ := hpre
      have hne : t.dropWhile (fun c => c == '/') ≠ [] := by
        rw [← hu]; exact List.cons_ne_nil _ _
      have hhead := List.head_dropWhile_not (fun c => c == '/') t hne
      have ha : (a == '/') = false := by
        have e : (t.dropWhile (fun c => c == '/')).head hne = a := by
          simp only [← hu, List.cons_append, List.head_cons]
        rw [e] at hhead
        exact hhead
      exact List.dropWhile_cons_of_neg (by simp [ha])
  rw [hq]
  exact List.rdropWhile_idempotent _ _

/-- The result of `trimUp` is left as it is by the two slash-stripping loops. -/
theorem trimUp_strip_fixed (p : Str) :
    ((trimUp p).dropWhile (fun c => c == '/')).rdropWhile (fun c => c == '/') = trimUp p := by
  unfold trimUp
  by_cases hp : p.isEmpty = true
  · rw [if_pos hp]
    have : p = [] := by simpa using hp
    subst this
    rfl
  · rw [if_neg hp]
    exact strip_slash_fixed (jsTrim p)

/-- C12, counterexample: `trimUp(" / a")` is `" a"`, and `trimUp(" a")` is `"a"`. -/
theorem trimUp_not_idempotent_counterexample :
    trimUp " / a".toList = " a".toList ∧ trimUp (trimUp " / a".toList) = "a".toList ∧
      trimUp (trimUp " / a".toList) ≠ trimUp " / a".toList := by
  decide

/-- C12, amended: for every string path `p`, `trimUp(trimUp(p)) = trimUp(p)` holds exactly when
`trimUp(p)` neither starts nor ends with whitespace, that is, when `trim` leaves it as it is. -/
theorem trimUp_idempotent_iff (p : Str) :
    trimUp (trimUp p) = trimUp p ↔ jsTrim (trimUp p) = trimUp p := by
  have hfix := trimUp_strip_fixed p
  generalize trimUp p = q at hfix ⊢
  cases hq : q with
  | nil => exact ⟨fun _ => rfl, fun _ => rfl⟩
  | cons a as =>
    rw [← hq]
    have hu : trimUp q =
        ((jsTrim q).dropWhile (fun c => c == '/')).rdropWhile (fun c => c == '/') := by
      rw [hq]
      rfl
    rw [hu]
    constructor
    · intro h
      have h1 := strip_length_le (fun c => c == '/') (jsTrim q)
      have h2 : (jsTrim q).length ≤ q.length := strip_length_le isJsWhitespace q
      rw [h] at h1
      exact strip_eq_self_of_length (Nat.le_antisymm h2 h1)
    · intro h
      rw [h]
      exact hfix

/-- C13: for every string path `p`, `trimUp(p)` neither starts nor ends with `"/"`. -/
theorem trimUp_no_outer_slash (p : Str) :
    startsWith (trimUp p) "/".toList = false ∧ endsWith (trimUp p) "/".toList = false := by
  have hfix := trimUp_strip_fixed p
  obtain ⟨h1, h2⟩ := dropWhile_eq_self_of_strip hfix
  generalize trimUp p = q at h1 h2
  constructor
  · cases q with
    | nil => rfl
    | cons a as =>
      by_cases ha : (a == '/') = true
      · exfalso
        rw [List.dropWhile_cons_of_pos (p := fun c => c == '/') ha] at h1
        have := (List.dropWhile_suffix (fun c => c == '/') (l := as)).length_le
        rw [h1] at this
        simp at this
      · have ha' : '/' ≠ a := by
          intro h
          exact ha (by rw [← h]; rfl)
        simp [startsWith, List.isPrefixOf, ha']
  · rw [List.rdropWhile_eq_self_iff] at h2
    cases hsuf : endsWith q "/".toList with
    | false => rfl
    | true =>
      exfalso
      unfold endsWith at hsuf
      rw [List.isSuffixOf_iff_suffix] at hsuf
      obtain ⟨u, hu⟩ := hsuf
      have hne : q ≠ [] := by
        rw [← hu]
        simp
      apply h2 hne
      have : q.getLast hne = '/' := by
        subst hu
        simp
      rw [this]
      rfl

/-- C14: for every string path, with `(parent, name) = nameParts(path)`: the name holds no
`"/"`; when `trimUp(path)` holds a `"/"`, `parent + "/" + name` is `trimUp(path)`, so the name
is the final segment and the parent all that is before it; otherwise the parent is the empty
string and the name is `trimUp(path)`. -/
theorem nameParts_spec (path : Str) :
    '/' ∉ (nameParts path).2 ∧
      ('/' ∈ trimUp path → (nameParts path).1 ++ '/' :: (nameParts path).2 = trimUp path) ∧
      ('/' ∉ trimUp path → (nameParts path).1 = [] ∧ (nameParts path).2 = trimUp path) := by
  unfold nameParts
  simp only []
  by_cases hlen : 1 < (jsSplit '/' (trimUp path)).length
  · have hmem := (one_lt_length_jsSplit_iff '/' (trimUp path)).1 hlen
    simp only [gt_iff_lt, hlen, if_true]
    refine ⟨?_, fun _ => jsJoin_dropLast_getLastD '/' _ hlen, fun h => absurd hmem h⟩
    exact not_mem_of_mem_jsSplit '/' (trimUp path) _ (getLastD_mem _ (jsSplit_ne_nil _ _))
  · have hmem : '/' ∉ trimUp path := fun h => hlen ((one_lt_length_jsSplit_iff _ _).2 h)
    simp only [gt_iff_lt, hlen, if_false]
    rw [jsSplit_of_not_mem _ _ hmem]
    refine ⟨hmem, fun h => absurd h hmem, fun _ => ?_⟩
    simp [jsJoin]

/-- C14, at the sub-level page of the tests. -/
theorem nameParts_spec_witness :
    '/' ∉ (nameParts "/three/four/".toList).2 ∧
      ('/' ∈ trimUp "/three/four/".toList →
        (nameParts "/three/four/".toList).1 ++ '/' :: (nameParts "/three/four/".toList).2 =
          trimUp "/three/four/".toList) ∧
      ('/' ∉ trimUp "/three/four/".toList →
        (nameParts "/three/four/".toList).1 = [] ∧
          (nameParts "/three/four/".toList).2 = trimUp "/three/four/".toList) :=
  nameParts_spec "/three/four/".toList

/-- A name without a `"."` has no extension to remove. -/
theorem removeExt_of_not_mem (name : Str) (h : '.' ∉ name) : removeExt name = name := by
  unfold removeExt
  rw [jsSplit_of_not_mem _ _ h]
  rfl

/-- Removing the extension from `base + "." + ext` gives the base when the extension holds no
`"."`. -/
theorem removeExt_append_ext (base ext : Str) (hext : '.' ∉ ext) :
    removeExt (base ++ '.' :: ext) = base := by
  unfold removeExt
  rw [jsSplit_append_sep, jsSplit_of_not_mem _ _ hext]
  have hlen : 1 < (jsSplit '.' base ++ [ext]).length := by
    rw [List.length_append]
    have := List.length_pos.2 (jsSplit_ne_nil '.' base)
    simp
    omega
  simp only [gt_iff_lt, hlen, if_true, List.dropLast_concat]
  exact jsJoin_jsSplit '.' base

/-- C15: for every name, `removeExt(name)` is the name itself when it holds no `"."`, and
otherwise what stands before its last `"."` (the removed part holds no `"."`); hence
`removeExt(base + "." + ext) = base` for every base and every extension without a `"."`. -/
theorem removeExt_spec (name : Str) :
    ('.' ∉ name → removeExt name = name) ∧
      ('.' ∈ name → ∃ ext, '.' ∉ ext ∧ name = removeExt name ++ '.' :: ext) ∧
      (∀ base ext : Str, '.' ∉ ext → removeExt (base ++ '.' :: ext) = base) := by
  refine ⟨removeExt_of_not_mem name, ?_, removeExt_append_ext⟩
  intro h
  have hlen := (one_lt_length_jsSplit_iff '.' name).2 h
  refine ⟨(jsSplit '.' name).getLastD [], ?_, ?_⟩
  · exact not_mem_of_mem_jsSplit '.' name _ (getLastD_mem _ (jsSplit_ne_nil _ _))
  · unfold removeExt
    simp only [gt_iff_lt, hlen, if_true]
    exact (jsJoin_dropLast_getLastD '.' name hlen).symm

/-- C15, at the name `a.b.c`: only the last segment goes. -/
theorem removeExt_spec_witness :
    ('.' ∉ "a.b.c".toList → removeExt "a.b.c".toList = "a.b.c".toList) ∧
      ('.' ∈ "a.b.c".toList →
        ∃ ext, '.' ∉ ext ∧ "a.b.c".toList = removeExt "a.b.c".toList ++ '.' :: ext) ∧
      (∀ base ext : Str, '.' ∉ ext → removeExt (base ++ '.' :: ext) = base) :=
  removeExt_spec "a.b.c".toList

/-! ## The candidate generator and the metadata attacher (C16, C17) -/

/-- C16: for every list of base names and of template extensions, the generator yields
`base + "." + ext` for the base at place `i` and the extension at place `j` as its element at
place `i * |extensions| + j`, and nothing else: its length is `|baseNames| * |extensions|`. So
the extensions cycle fastest and every candidate of an earlier base name comes before every
candidate of a later one. -/
theorem candidateNames_spec (self : PageLocator) (baseNames : List Str) :
    (self.candidateNamesGenerator baseNames).length =
        baseNames.length * self.templateExtensions.length ∧
      (∀ i j name ext, baseNames[i]? = some name → self.templateExtensions[j]? = some ext →
        (self.candidateNamesGenerator baseNames)[i * self.templateExtensions.length + j]? =
          some (name ++ '.' :: ext)) ∧
      (∀ i i' j j', i < i' → j < self.templateExtensions.length →
        i * self.templateExtensions.length + j < i' * self.templateExtensions.length + j') := by
  refine ⟨?_, ?_, ?_⟩
  · unfold PageLocator.candidateNamesGenerator
    induction baseNames with
    | nil => simp
    | cons b bs ih =>
      rw [List.flatMap_cons, List.length_append, ih, List.length_map, List.length_cons]
      rw [Nat.succ_mul, Nat.add_comm]
  · unfold PageLocator.candidateNamesGenerator
    induction baseNames with
    | nil =>
      intro i j name ext hi
      simp at hi
    | cons b bs ih =>
      intro i j name ext hi hj
      have hjlt : j < self.templateExtensions.length := by
        by_contra hge
        rw [List.getElem?_eq_none (Nat.le_of_not_lt hge)] at hj
        cases hj
      rw [List.flatMap_cons]
      cases i with
      | zero =>
        simp only [List.getElem?_cons_zero, Option.some.injEq] at hi
        subst hi
        rw [Nat.zero_mul, Nat.zero_add,
          List.getElem?_append_left (by rw [List.length_map]; exact hjlt), List.getElem?_map, hj]
        rfl
      | succ i =>
        have hi' : bs[i]? = some name := by simpa using hi
        have hle : (self.templateExtensions.map (fun ext => b ++ '.' :: ext)).length ≤
            (i + 1) * self.templateExtensions.length + j := by
          rw [List.length_map, Nat.succ_mul]
          omega
        rw [List.getElem?_append_right hle]
        have hidx : (i + 1) * self.templateExtensions.length + j -
            (self.templateExtensions.map (fun ext => b ++ '.' :: ext)).length =
            i * self.templateExtensions.length + j := by
          rw [List.length_map, Nat.succ_mul]
          omega
        rw [hidx]
        exact ih i j name ext hi' hj
  · intro i i' j j' hlt hj
    have : (i + 1) * self.templateExtensions.length ≤ i' * self.templateExtensions.length :=
      Nat.mul_le_mul_right _ hlt
    rw [Nat.succ_mul] at this
    omega

/-- C16, with the default extensions and the base names `index` and `home`. -/
theorem candidateNames_spec_witness :
    (testLocator.candidateNamesGenerator ["index".toList, "home".toList]).length =
        ["index".toList, "home".toList].length * testLocator.templateExtensions.length ∧
      (∀ i j name ext, ["index".toList, "home".toList][i]? = some name →
        testLocator.templateExtensions[j]? = some ext →
        (testLocator.candidateNamesGenerator ["index".toList, "home".toList])[
            i * testLocator.templateExtensions.length + j]? = some (name ++ '.' :: ext)) ∧
      (∀ i i' j j', i < i' → j < testLocator.templateExtensions.length →
        i * testLocator.templateExtensions.length + j <
          i' * testLocator.templateExtensions.length + j') :=
  candidateNames_spec testLocator ["index".toList, "home".toList]

/-- C17: for every record, base name, parent path and sibling map, `addMetadata` gives back the
record with its template and alternatives as they were and with `metadata` and `metadataExists`
set: to the relative path of the map's entry for `base + ".json"` and true when there is one,
and to `join(parent, base + ".json")` and false when there is none. -/
theorem addMetadata_spec {A : Type} (h : Host) (result : Page A) (base parentFilePath : Str)
    (namedSiblings : Obj Entry) :
    (addMetadata h result base parentFilePath namedSiblings).template = result.template ∧
      (addMetadata h result base parentFilePath namedSiblings).alternatives =
        result.alternatives ∧
      (∀ metaFile, objGet namedSiblings (base ++ ".json".toList) = some metaFile →
        (addMetadata h result base parentFilePath namedSiblings).metadata =
            some metaFile.relPath ∧
          (addMetadata h result base parentFilePath namedSiblings).metadataExists =
            some true) ∧
      (objGet namedSiblings (base ++ ".json".toList) = none →
        (addMetadata h result base parentFilePath namedSiblings).metadata =
            some (h.join parentFilePath (base ++ ".json".toList)) ∧
          (addMetadata h result base parentFilePath namedSiblings).metadataExists =
            some false) := by
  unfold addMetadata
  cases hm : objGet namedSiblings (base ++ ".json".toList) with
  | none =>
    refine ⟨rfl, rfl, ?_, fun _ => ⟨rfl, rfl⟩⟩
    intro metaFile hcontra
    cases hcontra
  | some m =>
    refine ⟨rfl, rfl, ?_, ?_⟩
    · intro metaFile hsome
      rw [Option.some.injEq] at hsome
      subst hsome
      exact ⟨rfl, rfl⟩
    · intro hcontra
      cases hcontra

/-- C17, on the record of the root page and the sibling map of the root of the test store. -/
theorem addMetadata_spec_witness :
    (addMetadata exampleHost
        ({ template := "index.tri".toList, alternatives := some [] } : ResolvedPage)
        "index".toList "".toList
        ((dirChildren "".toList rootNames).foldl reduceEntriesToNames [])).metadata =
      some "index.json".toList ∧
    (addMetadata exampleHost
        ({ template := "index.tri".toList, alternatives := some [] } : ResolvedPage)
        "index".toList "".toList
        ((dirChildren "".toList rootNames).foldl reduceEntriesToNames [])).metadataExists =
      some true :=
  (addMetadata_spec exampleHost
      ({ template := "index.tri".toList, alternatives := some [] } : ResolvedPage)
      "index".toList "".toList
      ((dirChildren "".toList rootNames).foldl reduceEntriesToNames [])).2.2.1
    { name := "index.json".toList, relPath := "index.json".toList } (by decide)

/-! ## Metadata of the primary template and accepted extensions (C11, C18) -/

/-- In the directory and page cases the name behind a resolved result is one of the generated
candidates. -/
theorem locate_found_candidate (self : PageLocator) (h : Host) (url filePath : Str)
    (parent : Info) (children : List Entry) (r : ResolvedPage)
    (hd : h.decodeURI (trimUp url) = some filePath)
    (hcase : (self.sink.getFullFileInfo filePath = some parent ∧ parent.directory = true) ∨
      (self.sink.getFullFileInfo filePath = none ∧
        self.sink.getFullFileInfo (nameParts filePath).1 = some parent))
    (hc : parent.children = some children)
    (hres : self.locate h url = .resolve r) :
    ∃ found baseNames, found ∈ self.candidateNamesGenerator baseNames ∧
      found ∈ children.map Entry.name ∧
      self._addInformationForFound h found (children.foldl reduceEntriesToNames []) = some r := by
  have ha : h.allowedPath filePath = true := by
    cases hall : h.allowedPath filePath with
    | true => rfl
    | false =>
      unfold PageLocator.locate at hres
      simp only [hd, hall, Bool.not_false, if_true, reduceCtorEq] at hres
  rw [locate_eq self h url filePath hd ha] at hres
  rcases hcase with ⟨h1, h2⟩ | ⟨h1, h2⟩
  · simp only [h1, h2, Bool.true_eq_false, if_false] at hres
    obtain ⟨found, hg, hm, hr⟩ := locateAmong_resolve self h parent _ children r hc hres
    exact ⟨found, _, hg, hm, hr⟩
  · simp only [h1, h2] at hres
    obtain ⟨found, hg, hm, hr⟩ := locateAmong_resolve self h parent _ children r hc hres
    exact ⟨found, _, hg, hm, hr⟩

/-- The scan resolves as soon as one generated name is the name of a child. -/
theorem locateAmong_resolves (self : PageLocator) (h : Host) (parent : Info)
    (baseNames : List Str) (children : List Entry) (hc : parent.children = some children)
    (hex : ∃ name ∈ baseNames, ∃ ext ∈ self.templateExtensions,
      name ++ '.' :: ext ∈ children.map Entry.name) :
    ∃ r, self.locateAmong h parent (self.candidateNamesGenerator baseNames) = .resolve r := by
  cases hf : (self.candidateNamesGenerator baseNames).find?
      (fun name => (objKeys (children.foldl reduceEntriesToNames [])).contains name) with
  | none =>
    exfalso
    obtain ⟨name, hn, ext, he, hmem⟩ := hex
    exact (find_names_eq_none_iff _ children).1 hf _
      ((mem_candidateNames self baseNames _).2 ⟨name, hn, ext, he, rfl⟩) hmem
  | some found =>
    obtain ⟨r, _, hr⟩ := locateAmong_found self h parent _ children found hc hf
      (candidate_ne_nil self baseNames found (List.mem_of_find?_eq_some hf))
    exact ⟨r, hr⟩

/-- C11: in the directory-index and extensionless-page cases, whenever a candidate name is the
name of a child of the directory searched, `locate` resolves, whether or not a sibling named
`base + ".json"` exists (`base` is the found name without its extension): when there is none,
`metadataExists` is false and `metadata` is `join(parent path of the template, base + ".json")`;
when there is one, `metadataExists` is true and `metadata` is its relative path. -/
theorem locate_metadata_absence (self : PageLocator) (h : Host) (url filePath : Str)
    (parent : Info) (children : List Entry)
    (hd : h.decodeURI (trimUp url) = some filePath) (ha : h.allowedPath filePath = true)
    (hcase :
      (self.sink.getFullFileInfo filePath = some parent ∧ parent.directory = true ∧
        ∃ name ∈ self.indexNames, ∃ ext ∈ self.templateExtensions,
          name ++ '.' :: ext ∈ children.map Entry.name) ∨
      (self.sink.getFullFileInfo filePath = none ∧
        self.sink.getFullFileInfo (nameParts filePath).1 = some parent ∧
        ∃ ext ∈ self.templateExtensions,
          removeExt (nameParts filePath).2 ++ '.' :: ext ∈ children.map Entry.name))
    (hc : parent.children = some children) :
    ∃ r found e, self.locate h url = .resolve r ∧ e ∈ children ∧ e.name = found ∧
      r.template = e.relPath ∧
      ((removeExt found ++ ".json".toList ∉ children.map Entry.name ∧
          r.metadata = some (h.join (nameParts r.template).1
            (removeExt found ++ ".json".toList)) ∧
          r.metadataExists = some false) ∨
        (∃ m ∈ children, m.name = removeExt found ++ ".json".toList ∧
          r.metadata = some m.relPath ∧ r.metadataExists = some true)) := by
  have hresolve : ∃ r, self.locate h url = .resolve r := by
    rw [locate_eq self h url filePath hd ha]
    rcases hcase with ⟨h1, h2, hex⟩ | ⟨h1, h2, hex⟩
    · simp only [h1, h2, Bool.true_eq_false, if_false]
      exact locateAmong_resolves self h parent _ children hc hex
    · simp only [h1, h2]
      exact locateAmong_resolves self h parent _ children hc
        ⟨_, List.mem_singleton_self _, hex⟩
  obtain ⟨r, hres⟩ := hresolve
  have hcase' : (self.sink.getFullFileInfo filePath = some parent ∧ parent.directory = true) ∨
      (self.sink.getFullFileInfo filePath = none ∧
        self.sink.getFullFileInfo (nameParts filePath).1 = some parent) := by
    rcases hcase with ⟨h1, h2, _⟩ | ⟨h1, h2, _⟩
    · exact Or.inl ⟨h1, h2⟩
    · exact Or.inr ⟨h1, h2⟩
  obtain ⟨found, _, hr⟩ := locate_found self h url filePath parent children r hd hcase' hc hres
  obtain ⟨e, alternatives, he, _, hrec⟩ := addInformationForFound_spec self h _ _ r hr
  obtain ⟨hmem, hn⟩ := named_get children _ e he
  have htemplate : r.template = e.relPath := by
    rw [hrec]
    exact addMetadata_template h _ _ _ _
  refine ⟨r, found, e, hres, hmem, hn, htemplate, ?_⟩
  rw [htemplate]
  rcases addMetadata_cases h
      ({ template := e.relPath, alternatives := some [] } : ResolvedPage)
      (removeExt found) (nameParts e.relPath).1 children with ⟨m, hm1, hm2, hm3⟩ | ⟨hm1, hm2⟩
  · rw [hm3] at hrec
    exact Or.inr ⟨m, hm1, hm2, by rw [hrec], by rw [hrec]⟩
  · rw [hm2] at hrec
    exact Or.inl ⟨hm1, by rw [hrec], by rw [hrec]⟩

/-- C18: in every result of the directory-index or extensionless-page case, the file name
chosen as template ends with `"." + ext` for a configured template extension, and so does the
file name behind the template of every alternate. -/
theorem template_extension_accepted (self : PageLocator) (h : Host) (url filePath : Str)
    (parent : Info) (children : List Entry) (r : ResolvedPage)
    (hd : h.decodeURI (trimUp url) = some filePath)
    (hcase : (self.sink.getFullFileInfo filePath = some parent ∧ parent.directory = true) ∨
      (self.sink.getFullFileInfo filePath = none ∧
        self.sink.getFullFileInfo (nameParts filePath).1 = some parent))
    (hc : parent.children = some children)
    (hres : self.locate h url = .resolve r) :
    ∃ found e alternatives, e ∈ children ∧ e.name = found ∧ r.template = e.relPath ∧
      (∃ ext ∈ self.templateExtensions, ('.' :: ext) <:+ found) ∧
      r.alternatives = some alternatives ∧
      ∀ k v, objGet alternatives k = some v →
        ∃ s ∈ children, v.template = s.relPath ∧
          ∃ ext ∈ self.templateExtensions, ('.' :: ext) <:+ s.name := by
  obtain ⟨found, baseNames, hg, _, hr⟩ :=
    locate_found_candidate self h url filePath parent children r hd hcase hc hres
  obtain ⟨e, alternatives, he, halts, hrec⟩ := addInformationForFound_spec self h _ _ r hr
  obtain ⟨hmem, hn⟩ := named_get children _ e he
  obtain ⟨name, _, ext, hext, hfound⟩ := (mem_candidateNames self baseNames found).1 hg
  refine ⟨found, e, alternatives, hmem, hn, ?_, ⟨ext, hext, ?_⟩, by rw [hrec], ?_⟩
  · rw [hrec]
    exact addMetadata_template h _ _ _ _
  · rw [hfound]
    exact List.suffix_append _ _
  · intro k v hget
    rcases addAlternatives_get self h _ _ _ _ _ _ halts k v hget with h0 | ⟨n, hn1, s, _, h2, h3⟩
    · simp [objGet] at h0
    · obtain ⟨_, _, h6⟩ := (mem_alts_children self _ children n).1 hn1
      obtain ⟨hs1, hs2⟩ := named_get children _ s h2
      refine ⟨s, hs1, ?_, by rw [hs2]; exact h6⟩
      rw [h3]
      exact addMetadata_template h _ _ _ _

/-- C11, witness: a root with `index.html` and `index.tri` and no `index.json`. -/
theorem locate_metadata_absence_witness :
    ∃ r found e, indexLocator.locate exampleHost "/".toList = .resolve r ∧
      e ∈ dirChildren "".toList ["index.html".toList, "index.tri".toList] ∧ e.name = found ∧
      r.template = e.relPath ∧
      ((removeExt found ++ ".json".toList ∉
            (dirChildren "".toList ["index.html".toList, "index.tri".toList]).map Entry.name ∧
          r.metadata = some (exampleHost.join (nameParts r.template).1
            (removeExt found ++ ".json".toList)) ∧
          r.metadataExists = some false) ∨
        (∃ m ∈ dirChildren "".toList ["index.html".toList, "index.tri".toList],
          m.name = removeExt found ++ ".json".toList ∧
          r.metadata = some m.relPath ∧ r.metadataExists = some true)) :=
  locate_metadata_absence indexLocator exampleHost "/".toList "".toList
    (dirInfo "".toList ["index.html".toList, "index.tri".toList]) _ (by decide) (by decide)
    (Or.inl ⟨by decide, by decide, "index".toList, by decide, "tri".toList, by decide,
      by decide⟩)
    (by decide)

/-- C18, witness: the page `three/four` of the tests and its alternate `four_de.tri`. -/
theorem template_extension_accepted_witness :
    ∃ found e alternatives, e ∈ dirChildren "three".toList threeNames ∧ e.name = found ∧
      "three/four.tri".toList = e.relPath ∧
      (∃ ext ∈ testLocator.templateExtensions, ('.' :: ext) <:+ found) ∧
      some [("de".toList,
        ({ template := "three/four_de.tri".toList
           metadata := some "three/four_de.json".toList
           metadataExists := some false
           alternatives := () } : AlternatePage))] = some alternatives ∧
      ∀ k v, objGet alternatives k = some v →
        ∃ s ∈ dirChildren "three".toList threeNames, v.template = s.relPath ∧
          ∃ ext ∈ testLocator.templateExtensions, ('.' :: ext) <:+ s.name :=
  template_extension_accepted testLocator exampleHost "three/four".toList "three/four".toList
    (dirInfo "three".toList threeNames) _ _
    (by decide) (Or.inr ⟨by decide, by decide⟩) (by decide) locate_three_four

/-! ## Which sibling an alternate key keeps (C20) -/

theorem keys_nodup_objSet {α : Type} (o : Obj α) (k : Str) (v : α)
    (h : (o.map Prod.fst).Nodup) : ((objSet o k v).map Prod.fst).Nodup := by
  induction o with
  | nil => simp only [objSet, List.map_cons, List.map_nil, List.nodup_cons, List.not_mem_nil,
      not_false_eq_true, List.nodup_nil, and_self]
  | cons p rest ih =>
    obtain ⟨k', v'⟩ := p
    rw [List.map_cons, List.nodup_cons] at h
    unfold objSet
    by_cases hk : k' = k
    · rw [if_pos hk, List.map_cons, List.nodup_cons]
      exact h
    · rw [if_neg hk, List.map_cons, List.nodup_cons, mem_keys_objSet]
      refine ⟨?_, ih h.2⟩
      rintro (h1 | h1)
      · exact hk h1
      · exact h.1 h1

theorem keys_nodup_reduce (children : List Entry) (acc : Obj Entry)
    (h : (acc.map Prod.fst).Nodup) :
    ((children.foldl reduceEntriesToNames acc).map Prod.fst).Nodup := by
  induction children generalizing acc with
  | nil => exact h
  | cons e rest ih =>
    rw [List.foldl_cons]
    exact ih _ (keys_nodup_objSet acc e.name e h)

theorem objKeys_nodup {α : Type} (o : Obj α) (h : (o.map Prod.fst).Nodup) :
    (objKeys o).Nodup := by
  unfold objKeys
  apply List.Nodup.append
  · exact (List.perm_insertionSort _ _).nodup_iff.2 (h.filter _)
  · exact h.filter _
  · intro x hx1 hx2
    rw [List.mem_insertionSort, List.mem_filter] at hx1
    rw [List.mem_filter] at hx2
    have h1 := hx1.2
    have h2 := hx2.2
    rw [h1] at h2
    cases h2

theorem arrayFromSet_of_nodup (xs seen : List Str) (hn : xs.Nodup)
    (hd : ∀ x ∈ xs, x ∉ seen) : arrayFromSet seen xs = xs := by
  induction xs generalizing seen with
  | nil => rfl
  | cons y ys ih =>
    rw [List.nodup_cons] at hn
    unfold arrayFromSet
    rw [if_neg (hd y (List.mem_cons_self _ _))]
    congr 1
    apply ih _ hn.2
    intro x hx hmem
    rcases List.mem_cons.1 hmem with h1 | h1
    · exact hn.1 (h1 ▸ hx)
    · exact hd x (List.mem_cons_of_mem _ hx) h1

/-- The list `alts` is the key list of the sibling map, filtered, in the same order. -/
theorem alts_eq_filter (self : PageLocator) (base : Str) (children : List Entry) :
    self.alts base (children.foldl reduceEntriesToNames []) =
      (objKeys (children.foldl reduceEntriesToNames [])).filter
        (fun n => self.isTemplateFilename n && startsWith n (base ++ ['_'])) := by
  unfold PageLocator.alts
  rw [List.filter_filter]
  apply arrayFromSet_of_nodup
  · exact (objKeys_nodup _ (keys_nodup_reduce children [] List.nodup_nil)).filter _
  · intro x _
    exact List.not_mem_nil x

theorem addAlternatives_keys_nodup (self : PageLocator) (h : Host) (base parentFilePath : Str)
    (namedSiblings : Obj Entry) (alts : List Str) (acc res : Obj AlternatePage)
    (hres : self.addAlternatives h base parentFilePath namedSiblings alts acc = some res)
    (hacc : (acc.map Prod.fst).Nodup) : (res.map Prod.fst).Nodup := by
  induction alts generalizing acc with
  | nil =>
    simp only [PageLocator.addAlternatives, Option.some.injEq] at hres
    subst hres
    exact hacc
  | cons a rest ih =>
    unfold PageLocator.addAlternatives at hres
    cases he : objGet namedSiblings a with
    | none => simp only [he] at hres; cases hres
    | some e =>
      simp only [he] at hres
      refine ih _ hres ?_
      unfold objAssign
      split
      · exact hacc
      · exact keys_nodup_objSet _ _ _ hacc

/-- The record a key ends with comes from the last name in the loop that gives that key; under
the name `__proto__` the loop leaves the own properties as they were. -/
theorem addAlternatives_last (self : PageLocator) (h : Host) (base parentFilePath : Str)
    (namedSiblings : Obj Entry) (alts : List Str) (acc res : Obj AlternatePage)
    (hres : self.addAlternatives h base parentFilePath namedSiblings alts acc = some res)
    (k : Str) (v : AlternatePage) (hget : objGet res k = some v) :
    ((k = "__proto__".toList ∨ ∀ a ∈ alts, jsToString (self._getAltKey a base) ≠ k) ∧
        objGet acc k = some v) ∨
      ∃ l1 n l2 e, alts = l1 ++ n :: l2 ∧ jsToString (self._getAltKey n base) = k ∧
        (∀ m ∈ l2, jsToString (self._getAltKey m base) ≠ k) ∧
        objGet namedSiblings n = some e ∧
        v = addMetadata h { template := e.relPath, alternatives := () } (base ++ '_' :: k)
              parentFilePath namedSiblings := by
  induction alts generalizing acc with
  | nil =>
    simp only [PageLocator.addAlternatives, Option.some.injEq] at hres
    subst hres
    exact Or.inl ⟨Or.inr (fun a ha => absurd ha (List.not_mem_nil a)), hget⟩
  | cons a rest ih =>
    unfold PageLocator.addAlternatives at hres
    cases he : objGet namedSiblings a with
    | none => simp only [he] at hres; cases hres
    | some e =>
      simp only [he] at hres
      rcases ih _ hres with ⟨h1, h2⟩ | ⟨l1, n, l2, e', h1, h2, h3, h4, h5⟩
      · rw [objGet_objAssign] at h2
        by_cases hkp : k = "__proto__".toList
        · refine Or.inl ⟨Or.inl hkp, ?_⟩
          by_cases hp : jsToString (self._getAltKey a base) = "__proto__".toList
          · rw [if_pos hp] at h2
            exact h2
          · rw [if_neg hp, if_neg (fun hk => hp (hk.trans hkp))] at h2
            exact h2
        · have h1' := h1.resolve_left hkp
          by_cases hk : jsToString (self._getAltKey a base) = k
          · rw [if_neg (fun hp => hkp (hk.symm.trans hp)), if_pos hk, Option.some.injEq] at h2
            refine Or.inr ⟨[], a, rest, e, rfl, hk, h1', he, ?_⟩
            rw [← h2, hk]
          · have h2' : objGet acc k = some v := by
              by_cases hp : jsToString (self._getAltKey a base) = "__proto__".toList
              · rw [if_pos hp] at h2
                exact h2
              · rw [if_neg hp, if_neg hk] at h2
                exact h2
            refine Or.inl ⟨Or.inr ?_, h2'⟩
            intro b hb
            rcases List.mem_cons.1 hb with rfl | hb
            · exact hk
            · exact h1' b hb
      · exact Or.inr ⟨a :: l1, n, l2, e', by rw [h1]; rfl, h2, h3, h4, h5⟩

theorem altKey_of_starts (self : PageLocator) (base n : Str) (hs : (base ++ ['_']) <+: n) :
    jsToString (self._getAltKey n base) = (removeExt n).drop (base.length + 1) := by
  have hs' : startsWith n (base ++ ['_']) = true := by
    unfold startsWith
    exact List.isPrefixOf_iff_prefix.2 hs
  unfold PageLocator._getAltKey
  simp only [hs', Bool.not_true, Bool.false_eq_true, if_false, jsToString]

theorem alt_filter_iff (self : PageLocator) (base n : Str) :
    (self.isTemplateFilename n && startsWith n (base ++ ['_'])) = true ↔
      (base ++ ['_']) <+: n ∧ ∃ ext ∈ self.templateExtensions, ('.' :: ext) <:+ n := by
  unfold startsWith PageLocator.isTemplateFilename endsWith
  simp only [Bool.and_eq_true, List.isPrefixOf_iff_prefix, List.any_eq_true,
    List.isSuffixOf_iff_suffix]
  exact And.comm

/-- Two locators with the same set of template extensions build the same result for a found
name, whatever the order of the extensions. -/
theorem addInformationForFound_congr (self other : PageLocator) (h : Host) (found : Str)
    (namedSiblings : Obj Entry)
    (hsame : ∀ x, x ∈ other.templateExtensions ↔ x ∈ self.templateExtensions) :
    other._addInformationForFound h found namedSiblings =
      self._addInformationForFound h found namedSiblings := by
  have htemplate : ∀ n, other.isTemplateFilename n = self.isTemplateFilename n := by
    intro n
    rw [Bool.eq_iff_iff]
    unfold PageLocator.isTemplateFilename
    simp only [List.any_eq_true]
    constructor
    · rintro ⟨x, hx, hp⟩; exact ⟨x, (hsame x).1 hx, hp⟩
    · rintro ⟨x, hx, hp⟩; exact ⟨x, (hsame x).2 hx, hp⟩
  have halts : ∀ base, other.alts base namedSiblings = self.alts base namedSiblings := by
    intro base
    unfold PageLocator.alts
    congr 1
    apply List.filter_congr
    intro n _
    exact htemplate n
  have hloop : ∀ (base parentFilePath : Str) (alts : List Str) (acc : Obj AlternatePage),
      other.addAlternatives h base parentFilePath namedSiblings alts acc =
        self.addAlternatives h base parentFilePath namedSiblings alts acc := by
    intro base parentFilePath alts
    induction alts with
    | nil => intro acc; rfl
    | cons a rest ih =>
      intro acc
      unfold PageLocator.addAlternatives
      cases objGet namedSiblings a with
      | none => rfl
      | some e => exact ih _
  unfold PageLocator._addInformationForFound
  cases objGet namedSiblings found with
  | none => rfl
  | some e =>
    simp only [halts, hloop]

/-- Alternates away from the name `__proto__` do not follow extension precedence. In the
directory-index and extensionless-page cases the own keys of `alternatives` are distinct, a key
other than `__proto__` that some sibling derives has an entry, and the template of an entry is
the relative path of the sibling that comes last, in the key order of the sibling map, among the
names deriving its key. Under `__proto__` there is no entry, whatever the siblings are. The
order of the template extensions plays no part: a locator with the same extensions in any other
order builds the same result for the found name. -/
theorem alternates_last_wins_except_proto (self : PageLocator) (h : Host) (url filePath : Str)
    (parent : Info) (children : List Entry) (r : ResolvedPage)
    (hd : h.decodeURI (trimUp url) = some filePath)
    (hcase : (self.sink.getFullFileInfo filePath = some parent ∧ parent.directory = true) ∨
      (self.sink.getFullFileInfo filePath = none ∧
        self.sink.getFullFileInfo (nameParts filePath).1 = some parent))
    (hc : parent.children = some children)
    (hres : self.locate h url = .resolve r) :
    ∃ found e alternatives, e ∈ children ∧ e.name = found ∧ r.template = e.relPath ∧
      r.alternatives = some alternatives ∧ (objKeys alternatives).Nodup ∧
      (∀ k, k ≠ "__proto__".toList →
        (∃ n ∈ children.map Entry.name, (removeExt found ++ ['_']) <+: n ∧
          (∃ ext ∈ self.templateExtensions, ('.' :: ext) <:+ n) ∧
          (removeExt n).drop ((removeExt found).length + 1) = k) →
        ∃ v, objGet alternatives k = some v) ∧
      objGet alternatives "__proto__".toList = none ∧
      (∀ k v, objGet alternatives k = some v →
        ∃ l1 n l2 s, objKeys (children.foldl reduceEntriesToNames []) = l1 ++ n :: l2 ∧
          ((removeExt found ++ ['_']) <+: n ∧
            (∃ ext ∈ self.templateExtensions, ('.' :: ext) <:+ n) ∧
            (removeExt n).drop ((removeExt found).length + 1) = k) ∧
          (∀ m ∈ l2, ¬ ((removeExt found ++ ['_']) <+: m ∧
            (∃ ext ∈ self.templateExtensions, ('.' :: ext) <:+ m) ∧
            (removeExt m).drop ((removeExt found).length + 1) = k)) ∧
          s ∈ children ∧ s.name = n ∧ v.template = s.relPath) ∧
      (∀ other : PageLocator,
        (∀ x, x ∈ other.templateExtensions ↔ x ∈ self.templateExtensions) →
        other._addInformationForFound h found (children.foldl reduceEntriesToNames []) =
          some r) := by
  obtain ⟨found, _, hr⟩ := locate_found self h url filePath parent children r hd hcase hc hres
  obtain ⟨e, alternatives, he, halts, hrec⟩ := addInformationForFound_spec self h _ _ r hr
  obtain ⟨hmem, hn⟩ := named_get children _ e he
  refine ⟨found, e, alternatives, hmem, hn, ?_, by rw [hrec], ?_, ?_, ?_, ?_, ?_⟩
  · rw [hrec]
    exact addMetadata_template h _ _ _ _
  · exact objKeys_nodup _
      (addAlternatives_keys_nodup self h _ _ _ _ _ _ halts List.nodup_nil)
  · rintro k hk ⟨n, h1, h2, h3, h4⟩
    have hn1 := (mem_alts_children self (removeExt found) children n).2 ⟨h1, h2, h3⟩
    have hkey : k ∈ alternatives.map Prod.fst :=
      (addAlternatives_keys self h _ _ _ _ _ _ halts k).2
        (Or.inr ⟨hk, n, hn1, by rw [altKey_of_mem_alts self _ _ n hn1]; exact h4⟩)
    have hsome := (objGet_isSome_iff alternatives k).2 hkey
    cases hv : objGet alternatives k with
    | none => rw [hv] at hsome; cases hsome
    | some v => exact ⟨v, rfl⟩
  · rw [objGet_eq_none_iff, addAlternatives_keys self h _ _ _ _ _ _ halts]
    rintro (h0 | ⟨h0, _⟩)
    · exact absurd h0 (List.not_mem_nil _)
    · exact h0 rfl
  · intro k v hget
    rcases addAlternatives_last self h _ _ _ _ _ _ halts k v hget with
      ⟨_, h0⟩ | ⟨l1, n, l2, s, h1, h2, h3, h4, h5⟩
    · simp [objGet] at h0
    · rw [alts_eq_filter, List.filter_eq_append_iff] at h1
      obtain ⟨K1, K2, hK, _, hK2⟩ := h1
      rw [List.filter_eq_cons_iff] at hK2
      obtain ⟨K2a, K2b, hK2eq, _, hpn, hK2b⟩ := hK2
      obtain ⟨hpre, hsuf⟩ := (alt_filter_iff self (removeExt found) n).1 hpn
      rw [altKey_of_starts self _ n hpre] at h2
      obtain ⟨hs1, hs2⟩ := named_get children _ s h4
      refine ⟨K1 ++ K2a, n, K2b, s, ?_, ⟨hpre, hsuf, h2⟩, ?_, hs1, hs2, ?_⟩
      · rw [hK, hK2eq, List.append_assoc]
      · rintro m hm ⟨hmpre, hmsuf, hmk⟩
        have hpm := (alt_filter_iff self (removeExt found) m).2 ⟨hmpre, hmsuf⟩
        have hml2 : m ∈ l2 := by
          rw [← hK2b, List.mem_filter]
          exact ⟨hm, hpm⟩
        apply h3 m hml2
        rw [altKey_of_starts self _ m hmpre]
        exact hmk
      · rw [h5]
        exact addMetadata_template h _ _ _ _
  · intro other hsame
    rw [addInformationForFound_congr self other h found _ hsame]
    exact hr

/-- The root page over a store that lists `index_en.tri` before `index_en.html`: the alternate
`en` is the `html` file, though `tri` comes first among the template extensions. -/
theorem locate_twin_root :
    twinLocator.locate exampleHost "/".toList =
      .resolve
        { template := "index.tri".toList
          metadata := some "index.json".toList
          metadataExists := some false
          alternatives := some [("en".toList,
            { template := "index_en.html".toList
              metadata := some "index_en.json".toList
              metadataExists := some false
              alternatives := () })] } := by
  decide

/-- The root that lists `index_en.tri` before `index_en.html`, as an instance of
`alternates_last_wins_except_proto`. -/
theorem alternates_last_wins_except_proto_witness :
    ∃ found e alternatives,
      e ∈ dirChildren "".toList
        ["index.tri".toList, "index_en.tri".toList, "index_en.html".toList] ∧
      e.name = found ∧ "index.tri".toList = e.relPath ∧
      some [("en".toList,
        ({ template := "index_en.html".toList
           metadata := some "index_en.json".toList
           metadataExists := some false
           alternatives := () } : AlternatePage))] = some alternatives ∧
      (objKeys alternatives).Nodup ∧
      (∀ k, k ≠ "__proto__".toList →
        (∃ n ∈ (dirChildren "".toList
            ["index.tri".toList, "index_en.tri".toList, "index_en.html".toList]).map Entry.name,
          (removeExt found ++ ['_']) <+: n ∧
          (∃ ext ∈ twinLocator.templateExtensions, ('.' :: ext) <:+ n) ∧
          (removeExt n).drop ((removeExt found).length + 1) = k) →
        ∃ v, objGet alternatives k = some v) ∧
      objGet alternatives "__proto__".toList = none ∧
      (∀ k v, objGet alternatives k = some v →
        ∃ l1 n l2 s,
          objKeys ((dirChildren "".toList
            ["index.tri".toList, "index_en.tri".toList, "index_en.html".toList]).foldl
              reduceEntriesToNames []) = l1 ++ n :: l2 ∧
          ((removeExt found ++ ['_']) <+: n ∧
            (∃ ext ∈ twinLocator.templateExtensions, ('.' :: ext) <:+ n) ∧
            (removeExt n).drop ((removeExt found).length + 1) = k) ∧
          (∀ m ∈ l2, ¬ ((removeExt found ++ ['_']) <+: m ∧
            (∃ ext ∈ twinLocator.templateExtensions, ('.' :: ext) <:+ m) ∧
            (removeExt m).drop ((removeExt found).length + 1) = k)) ∧
          s ∈ dirChildren "".toList
            ["index.tri".toList, "index_en.tri".toList, "index_en.html".toList] ∧
          s.name = n ∧ v.template = s.relPath) ∧
      (∀ other : PageLocator,
        (∀ x, x ∈ other.templateExtensions ↔ x ∈ twinLocator.templateExtensions) →
        other._addInformationForFound exampleHost found
          ((dirChildren "".toList
            ["index.tri".toList, "index_en.tri".toList, "index_en.html".toList]).foldl
              reduceEntriesToNames []) =
          some
            { template := "index.tri".toList
              metadata := some "index.json".toList
              metadataExists := some false
              alternatives := some [("en".toList,
                { template := "index_en.html".toList
                  metadata := some "index_en.json".toList
                  metadataExists := some false
                  alternatives := () })] }) :=
  alternates_last_wins_except_proto twinLocator exampleHost "/".toList "".toList
    (dirInfo "".toList ["index.tri".toList, "index_en.tri".toList, "index_en.html".toList])
    _ _ (by decide) (Or.inl ⟨by decide, by decide⟩) (by decide) locate_twin_root

/-- C20, failing input: the root lists `index.tri`, `index___proto__.tri` and
`index___proto__.html`, and the store keeps its contract. The two later names are siblings that
start with `index_`, end in an accepted extension and derive the same key `__proto__`, yet
`locate("/")` resolves with an `alternatives` object that has no own entry, so none under the
shared key: each of the two assignments under `__proto__` replaced the prototype of the object,
and the record of `index___proto__.html`, the later sibling, is left as the prototype only. -/
theorem shared_proto_key_no_entry :
    StoreContract protoTwinLocator.sink ∧
      (∀ n ∈ ["index___proto__.tri".toList, "index___proto__.html".toList],
        n ∈ (dirChildren "".toList ["index.tri".toList, "index___proto__.tri".toList,
          "index___proto__.html".toList]).map Entry.name ∧
        (removeExt "index.tri".toList ++ ['_']) <+: n ∧
        (∃ ext ∈ protoTwinLocator.templateExtensions, ('.' :: ext) <:+ n) ∧
        (removeExt n).drop ((removeExt "index.tri".toList).length + 1) = "__proto__".toList) ∧
      protoTwinLocator.locate exampleHost "/".toList =
        .resolve
          { template := "index.tri".toList
            metadata := some "index.json".toList
            metadataExists := some false
            alternatives := some [] } ∧
      objGet ([] : Obj AlternatePage) "__proto__".toList = none :=
  ⟨tableSink_contract _ (by decide), by decide, by decide, rfl⟩

/-! ## Exact-file and extensionless lookups (C19) -/

/-- C19, counterexample: the root holds the files `a .tri` and `a.tri`, each child has the
relative path `join(dir, name)`, and lookups succeed exactly on the root and the two files. The
base name `"a "` holds no `"."`, `tri` is the first extension for which `base.ext` is a child
file, and the store has no entry at `join(dir, base)`. Yet `locate(join(dir, "a .tri"))`
resolves to `a .tri` and `locate(join(dir, "a "))` resolves to `a.tri`: the space at the end of
the path is trimmed away. -/
theorem exact_and_page_lookup_counterexample :
    (∀ e ∈ dirChildren "".toList ["a .tri".toList, "a.tri".toList],
        e.relPath = exampleHost.join "".toList e.name ∧
        spaceLocator.sink.getFullFileInfo (exampleHost.join "".toList e.name) =
          some (fileInfo e.relPath)) ∧
      '.' ∉ "a ".toList ∧ '.' ∉ "tri".toList ∧
      spaceLocator.templateExtensions[0]? = some "tri".toList ∧
      spaceLocator.sink.getFullFileInfo (exampleHost.join "".toList "a ".toList) = none ∧
      spaceLocator.locate exampleHost (exampleHost.join "".toList "a .tri".toList) =
        .resolve
          { template := "a .tri".toList
            metadata := some "a .json".toList
            metadataExists := some false
            alternatives := none } ∧
      spaceLocator.locate exampleHost (exampleHost.join "".toList "a ".toList) =
        .resolve
          { template := "a.tri".toList
            metadata := some "a.json".toList
            metadataExists := some false
            alternatives := some [] } := by
  decide

/-- C19, amended: take a directory `dir` whose children have the relative path
`join(dir, name)`, a base name and an extension without `"."` such that `ext` is the first
template extension for which `base.ext` is a child, that child being a file whose entry carries
the same relative path, and such that the store has no entry at `join(dir, base)` and has one
at `join(dir, base + ".json")` exactly when a child has that name. If moreover the two paths
`join(dir, base + "." + ext)` and `join(dir, base)` are left as they are by `trimUp` and
`decodeURI`, are allowed, and have the parts `(dir, name)`, then `locate` resolves on both and
the two results have the same template, the same metadata and the same `metadataExists`. -/
theorem exact_and_page_lookup_agree (self : PageLocator) (h : Host) (dir base ext : Str)
    (parent info : Info) (children : List Entry) (j : Nat)
    (hbase : '.' ∉ base) (hext : '.' ∉ ext)
    (hd1 : h.decodeURI (trimUp (h.join dir (base ++ '.' :: ext))) =
      some (h.join dir (base ++ '.' :: ext)))
    (ha1 : h.allowedPath (h.join dir (base ++ '.' :: ext)) = true)
    (hn1 : nameParts (h.join dir (base ++ '.' :: ext)) = (dir, base ++ '.' :: ext))
    (hd2 : h.decodeURI (trimUp (h.join dir base)) = some (h.join dir base))
    (ha2 : h.allowedPath (h.join dir base) = true)
    (hn2 : nameParts (h.join dir base) = (dir, base))
    (hdir : self.sink.getFullFileInfo dir = some parent)
    (hc : parent.children = some children)
    (hrel : ∀ e ∈ children, e.relPath = h.join dir e.name)
    (hfile : self.sink.getFullFileInfo (h.join dir (base ++ '.' :: ext)) = some info)
    (hnotdir : info.directory = false)
    (hinfo : info.relPath = h.join dir (base ++ '.' :: ext))
    (hmeta : (self.sink.getFullFileInfo (h.join dir (base ++ ".json".toList))).isSome = true ↔
      base ++ ".json".toList ∈ children.map Entry.name)
    (hnone : self.sink.getFullFileInfo (h.join dir base) = none)
    (hj : self.templateExtensions[j]? = some ext)
    (hin : base ++ '.' :: ext ∈ children.map Entry.name)
    (hfirst : ∀ j' ext', j' < j → self.templateExtensions[j']? = some ext' →
      base ++ '.' :: ext' ∉ children.map Entry.name) :
    ∃ r1 r2, self.locate h (h.join dir (base ++ '.' :: ext)) = .resolve r1 ∧
      self.locate h (h.join dir base) = .resolve r2 ∧
      r1.template = r2.template ∧ r1.metadata = r2.metadata ∧
      r1.metadataExists = r2.metadataExists := by
  -- the exact-file lookup
  have hloc1 : self.locate h (h.join dir (base ++ '.' :: ext)) =
      .resolve
        { template := h.join dir (base ++ '.' :: ext)
          metadata := some (h.join dir (base ++ ".json".toList))
          metadataExists :=
            some (self.sink.getFullFileInfo (h.join dir (base ++ ".json".toList))).isSome
          alternatives := none } := by
    rw [locate_eq self h _ _ hd1 ha1, hfile]
    simp only [hnotdir, if_true, hn1, hinfo, removeExt_append_ext base ext hext]
  -- the extensionless lookup
  have hfind := find_candidate_index self
    (p := fun c => (objKeys (children.foldl reduceEntriesToNames [])).contains c)
    [base] 0 j base ext rfl hj
    (by simpa using (mem_names_iff children _).2 hin)
    (by
      intro i' j' name' ext' h1 h2 h3
      have hi0 : i' = 0 := by
        cases i' with
        | zero => rfl
        | succ n => simp at h1
      subst hi0
      simp only [List.getElem?_cons_zero, Option.some.injEq] at h1
      subst h1
      have hlt : j' < j := by omega
      have := hfirst j' ext' hlt h2
      rw [← mem_names_iff] at this
      simpa using this)
  obtain ⟨r2, hr2, hamong⟩ := locateAmong_found self h parent _ children _ hc hfind (by simp)
  have hloc2 : self.locate h (h.join dir base) = .resolve r2 := by
    rw [locate_eq self h _ _ hd2 ha2, hnone]
    simp only [hn2, hdir, removeExt_of_not_mem base hbase]
    exact hamong
  obtain ⟨e, alternatives, he, _, hrec⟩ := addInformationForFound_spec self h _ _ r2 hr2
  obtain ⟨hmem, hname⟩ := named_get children _ e he
  have hepath : e.relPath = h.join dir (base ++ '.' :: ext) := by
    rw [hrel e hmem, hname]
  rw [hepath, hn1, removeExt_append_ext base ext hext] at hrec
  refine ⟨_, r2, hloc1, hloc2, ?_⟩
  rcases addMetadata_cases h
      ({ template := h.join dir (base ++ '.' :: ext), alternatives := some [] } : ResolvedPage)
      base dir children with ⟨m, hm1, hm2, hm3⟩ | ⟨hm1, hm2⟩
  · rw [hm3] at hrec
    have hsome : (self.sink.getFullFileInfo (h.join dir (base ++ ".json".toList))).isSome =
        true := hmeta.2 (hm2 ▸ List.mem_map_of_mem _ hm1)
    have hmrel : m.relPath = h.join dir (base ++ ".json".toList) := by
      rw [hrel m hm1, hm2]
    rw [hrec]
    simp only [hsome, hmrel, and_self]
  · rw [hm2] at hrec
    have hnot : (self.sink.getFullFileInfo (h.join dir (base ++ ".json".toList))).isSome =
        false := by
      cases hs : (self.sink.getFullFileInfo (h.join dir (base ++ ".json".toList))).isSome with
      | false => rfl
      | true => exact absurd (hmeta.1 hs) hm1
    rw [hrec]
    simp only [hnot, and_self]

/-- C19, witness: the file `three/four.tri` and the page `three/four` of the tests. -/
theorem exact_and_page_lookup_agree_witness :
    ∃ r1 r2,
      testLocator.locate exampleHost
          (exampleHost.join "three".toList ("four".toList ++ '.' :: "tri".toList)) =
        .resolve r1 ∧
      testLocator.locate exampleHost (exampleHost.join "three".toList "four".toList) =
        .resolve r2 ∧
      r1.template = r2.template ∧ r1.metadata = r2.metadata ∧
      r1.metadataExists = r2.metadataExists :=
  exact_and_page_lookup_agree testLocator exampleHost "three".toList "four".toList
    "tri".toList (dirInfo "three".toList threeNames) (fileInfo "three/four.tri".toList)
    (dirChildren "three".toList threeNames) 0
    (by decide) (by decide) (by decide) (by decide) (by decide) (by decide) (by decide)
    (by decide) (by decide) (by decide) (by decide) (by decide) (by decide) (by decide)
    (by decide) (by decide) (by decide) (by decide) (fun j' _ hlt _ => by omega)

end Webhandle
